import Mathlib

/-!
Verification development for the trading212 tax-calculator core
(`models/portfolio.py`, `calculators/fifo_calculator.py`,
`calculators/dividend_calculator.py`).

The source performs all monetary and quantity arithmetic on Python
`decimal.Decimal` values under the default context: 28 significant digits,
`ROUND_HALF_EVEN`.  A `Decimal` is a sign, an integer coefficient and a
power-of-ten exponent; `+`, `-` and `*` compute the exact coefficient and
round it to 28 significant digits, `/` is correctly rounded to 28
significant digits, and `==` / `<` / `min` compare numeric values exactly.
`Dec` below models exactly that (with the representation normalised so that
structural equality coincides with the numeric equality Python's `==`
uses); `Dec.toRat` gives the exact rational value, used by specification
statements.
-/

/-- Fueled base-10 logarithm on naturals: `natLog10 fuel n` is
`⌊log10 n⌋` whenever `0 < n < 10 ^ fuel`.  (Structural recursion on the
fuel keeps the definition kernel-reducible.) -/
def natLog10 : Nat → Nat → Nat
  | 0, _ => 0
  | fuel + 1, n => if n < 10 then 0 else natLog10 fuel (n / 10) + 1

/-- Number of decimal digits of `n`, minus one: `⌊log10 n⌋` for `0 < n`. -/
def digLog10 (n : Nat) : Nat := natLog10 n n

theorem natLog10_spec (fuel : Nat) : ∀ n : Nat, 0 < n → n < 10 ^ fuel →
    10 ^ natLog10 fuel n ≤ n ∧ n < 10 ^ (natLog10 fuel n + 1) := by
  induction fuel with
  | zero => intro n h0 hf; omega
  | succ fuel ih =>
    intro n h0 hf
    by_cases hn : n < 10
    · simp only [natLog10, if_pos hn]
      constructor
      · simpa using h0
      · simpa using hn
    · simp only [natLog10, if_neg hn]
      have h10 : 10 ≤ n := by omega
      have hm0 : 0 < n / 10 := Nat.div_pos h10 (by norm_num)
      have hmf : n / 10 < 10 ^ fuel := by
        rw [Nat.div_lt_iff_lt_mul (show 0 < 10 by norm_num)]
        calc n < 10 ^ (fuel + 1) := hf
          _ = 10 ^ fuel * 10 := by ring
      obtain ⟨hlo, hhi⟩ := ih (n / 10) hm0 hmf
      constructor
      · calc 10 ^ (natLog10 fuel (n / 10) + 1)
            = 10 ^ natLog10 fuel (n / 10) * 10 := by ring
          _ ≤ n / 10 * 10 := Nat.mul_le_mul_right 10 hlo
          _ ≤ n := Nat.div_mul_le_self n 10
      · have hmod : n < 10 * (n / 10) + 10 := by
          have h1 := Nat.div_add_mod n 10
          have h2 := Nat.mod_lt n (show 0 < 10 by norm_num)
          omega
        calc n < 10 * (n / 10) + 10 := hmod
          _ = 10 * (n / 10 + 1) := by ring
          _ ≤ 10 * 10 ^ (natLog10 fuel (n / 10) + 1) := by
              exact Nat.mul_le_mul_left 10 (by omega)
          _ = 10 ^ (natLog10 fuel (n / 10) + 1 + 1) := by ring

theorem digLog10_spec (n : Nat) (h0 : 0 < n) :
    10 ^ digLog10 n ≤ n ∧ n < 10 ^ (digLog10 n + 1) :=
  natLog10_spec n n h0 (Nat.lt_pow_self (by norm_num) n)

/-- A Python `decimal.Decimal` value: integer coefficient (with sign) times
a power of ten.  Kept in the normal form with no trailing zeros in the
coefficient (and `0` represented as `⟨0, 0⟩`), so that structural equality
is the numeric equality Python's `Decimal.__eq__` implements. -/
structure Dec where
  man : ℤ
  exp : ℤ
deriving DecidableEq

/-- The exact rational value of a `Dec`; specification-level only. -/
def Dec.toRat (d : Dec) : ℚ := (d.man : ℚ) * (10 : ℚ) ^ d.exp

/-- Strip factors of ten from `m`, returning the stripped integer and the
count of stripped zeros.  Fueled structural recursion. -/
def stripZeros : Nat → ℤ → ℤ × Nat
  | 0, m => (m, 0)
  | f + 1, m =>
    if m % 10 = 0 ∧ m ≠ 0 then
      let p := stripZeros f (m / 10)
      (p.1, p.2 + 1)
    else (m, 0)

/-- Build a `Dec` from a raw coefficient/exponent pair, normalising the
representation (value is unchanged). -/
def Dec.norm (m e : ℤ) : Dec :=
  if m = 0 then ⟨0, 0⟩
  else
    let p := stripZeros m.natAbs m
    ⟨p.1, e + p.2⟩

/-- Round the natural `a` to the multiple-of-`P` quotient `a / P`,
half-even on the remainder (banker's rounding, `ROUND_HALF_EVEN`). -/
def rhalf (a P : ℕ) : ℕ :=
  if 2 * (a % P) < P then a / P
  else if P < 2 * (a % P) then a / P + 1
  else if a / P % 2 = 0 then a / P else a / P + 1

/-- Round a raw coefficient/exponent pair to the 28-significant-digit
context, half-even — the rounding every `decimal` arithmetic operation
applies to its exact result. -/
def Dec.roundCtx (m e : ℤ) : Dec :=
  if m.natAbs < 10 ^ 28 then Dec.norm m e
  else
    let k := digLog10 m.natAbs - 27
    Dec.norm ((if m < 0 then -1 else 1) * (rhalf m.natAbs (10 ^ k) : ℤ)) (e + k)

/-- `Decimal.__add__`: exact coefficient addition at the smaller exponent,
then context rounding. -/
def Dec.add (x y : Dec) : Dec :=
  if x.exp ≤ y.exp then Dec.roundCtx (x.man + y.man * 10 ^ (y.exp - x.exp).toNat) x.exp
  else Dec.roundCtx (x.man * 10 ^ (x.exp - y.exp).toNat + y.man) y.exp

/-- `Decimal.__neg__` (exact). -/
def Dec.neg (x : Dec) : Dec := ⟨-x.man, x.exp⟩

/-- `Decimal.__sub__`: exact difference, then context rounding. -/
def Dec.sub (x y : Dec) : Dec := Dec.add x (Dec.neg y)

/-- `Decimal.__mul__`: exact coefficient product, then context rounding. -/
def Dec.mul (x y : Dec) : Dec := Dec.roundCtx (x.man * y.man) (x.exp + y.exp)

/-- `⌊log10 (a / b)⌋` for positive naturals `a`, `b`: digit-count estimate
corrected by one integer comparison. -/
def divC (a b : ℕ) : ℤ :=
  if b * 10 ^ digLog10 a ≤ a * 10 ^ digLog10 b then (digLog10 a : ℤ) - digLog10 b
  else (digLog10 a : ℤ) - digLog10 b - 1

/-- `Decimal.__truediv__`: quotient correctly rounded to 28 significant
digits, half-even.  The coefficient quotient is computed by scaling the
dividend so the integer quotient carries 28 significant digits, then
rounding on the exact remainder.  Division by zero raises in Python; the
callers modelled here guard it, and the `y.man = 0` branch is never
reached under their hypotheses. -/
def Dec.div (x y : Dec) : Dec :=
  if y.man = 0 then ⟨0, 0⟩
  else if x.man = 0 then ⟨0, 0⟩
  else
    let a := x.man.natAbs
    let b := y.man.natAbs
    let sgn : ℤ := if (x.man < 0) = (y.man < 0) then 1 else -1
    let c := divC a b
    let t := 27 - c
    let N := if 0 ≤ t then a * 10 ^ t.toNat else a
    let D := if 0 ≤ t then b else b * 10 ^ (-t).toNat
    Dec.norm (sgn * (rhalf N D : ℤ)) (x.exp - y.exp + c - 27)

/-- Exact numeric strict comparison of two `Dec`s (Python compares
`Decimal`s by value, never by representation). -/
def Dec.blt (x y : Dec) : Bool :=
  if x.exp ≤ y.exp then decide (x.man < y.man * 10 ^ (y.exp - x.exp).toNat)
  else decide (x.man * 10 ^ (x.exp - y.exp).toNat < y.man)

/-- Exact numeric non-strict comparison. -/
def Dec.ble (x y : Dec) : Bool :=
  if x.exp ≤ y.exp then decide (x.man ≤ y.man * 10 ^ (y.exp - x.exp).toNat)
  else decide (x.man * 10 ^ (x.exp - y.exp).toNat ≤ y.man)

/-- Python's `min` on two `Decimal`s (numeric comparison, first argument
kept on ties). -/
def Dec.dmin (x y : Dec) : Dec := if Dec.blt y x then y else x

/-- The zero `Decimal`. -/
def Dec.zero : Dec := ⟨0, 0⟩

theorem stripZeros_spec (f : Nat) : ∀ m : ℤ,
    (stripZeros f m).1 * 10 ^ (stripZeros f m).2 = m := by
  induction f with
  | zero => intro m; simp [stripZeros]
  | succ f ih =>
    intro m
    by_cases h : m % 10 = 0 ∧ m ≠ 0
    · simp only [stripZeros, if_pos h]
      have hdvd : (10 : ℤ) ∣ m := Int.dvd_of_emod_eq_zero h.1
      have := ih (m / 10)
      calc (stripZeros f (m / 10)).1 * 10 ^ ((stripZeros f (m / 10)).2 + 1)
          = (stripZeros f (m / 10)).1 * 10 ^ (stripZeros f (m / 10)).2 * 10 := by ring
        _ = m / 10 * 10 := by rw [this]
        _ = m := Int.ediv_mul_cancel hdvd
    · have hz : stripZeros (f + 1) m = (m, 0) := by
        simp only [stripZeros]
        rw [if_neg h]
      rw [hz]
      simp

theorem toRat_norm (m e : ℤ) : (Dec.norm m e).toRat = (m : ℚ) * (10 : ℚ) ^ e := by
  unfold Dec.norm
  split_ifs with h
  · simp [Dec.toRat, h]
  · have hs := stripZeros_spec m.natAbs m
    have hten : (10 : ℚ) ≠ 0 := by norm_num
    simp only [Dec.toRat]
    have hcast : ((stripZeros m.natAbs m).1 : ℚ) * (10 : ℚ) ^ ((stripZeros m.natAbs m).2 : ℕ) =
        (m : ℚ) := by exact_mod_cast congrArg (fun z : ℤ => (z : ℚ)) hs
    calc ((stripZeros m.natAbs m).1 : ℚ) * (10 : ℚ) ^ (e + ((stripZeros m.natAbs m).2 : ℕ) : ℤ)
        = ((stripZeros m.natAbs m).1 : ℚ) *
            ((10 : ℚ) ^ (((stripZeros m.natAbs m).2 : ℕ) : ℤ) * (10 : ℚ) ^ e) := by
          rw [← zpow_add₀ hten]; congr 1; ring
      _ = (((stripZeros m.natAbs m).1 : ℚ) * (10 : ℚ) ^ ((stripZeros m.natAbs m).2 : ℕ)) *
            (10 : ℚ) ^ e := by rw [zpow_natCast]; ring
      _ = (m : ℚ) * (10 : ℚ) ^ e := by rw [hcast]

theorem norm_exp_le (m e : ℤ) (hm : m ≠ 0) : e ≤ (Dec.norm m e).exp := by
  unfold Dec.norm
  rw [if_neg hm]
  show e ≤ e + ((stripZeros m.natAbs m).2 : ℤ)
  have h0 : (0 : ℤ) ≤ ((stripZeros m.natAbs m).2 : ℤ) := Int.natCast_nonneg _
  omega

theorem toRat_roundCtx_small {m : ℤ} (e : ℤ) (h : m.natAbs < 10 ^ 28) :
    (Dec.roundCtx m e).toRat = (m : ℚ) * (10 : ℚ) ^ e := by
  rw [Dec.roundCtx, if_pos h, toRat_norm]

theorem rhalf_pos {a P : ℕ} (hP : 0 < P) (hPa : P ≤ a) : 1 ≤ rhalf a P := by
  have hq0 : 1 ≤ a / P := (Nat.one_le_div_iff hP).mpr hPa
  unfold rhalf
  split_ifs <;> omega

theorem roundCtx_exp_le (m e : ℤ) (hm : m ≠ 0) : e ≤ (Dec.roundCtx m e).exp := by
  by_cases h : m.natAbs < 10 ^ 28
  · rw [Dec.roundCtx, if_pos h]
    exact norm_exp_le m e hm
  · rw [Dec.roundCtx, if_neg h]
    show e ≤ (Dec.norm ((if m < 0 then (-1 : ℤ) else 1) *
        (rhalf m.natAbs (10 ^ (digLog10 m.natAbs - 27)) : ℤ))
        (e + ((digLog10 m.natAbs - 27 : ℕ) : ℤ))).exp
    have ha0 : 0 < m.natAbs := by omega
    obtain ⟨hd1, _⟩ := digLog10_spec m.natAbs ha0
    have hP : 10 ^ (digLog10 m.natAbs - 27) ≤ m.natAbs := by
      calc (10 : ℕ) ^ (digLog10 m.natAbs - 27) ≤ 10 ^ digLog10 m.natAbs :=
            Nat.pow_le_pow_right (by norm_num) (by omega)
        _ ≤ m.natAbs := hd1
    have hq1 : 1 ≤ rhalf m.natAbs (10 ^ (digLog10 m.natAbs - 27)) :=
      rhalf_pos (by positivity) hP
    have hne : (if m < 0 then (-1 : ℤ) else 1) *
        ((rhalf m.natAbs (10 ^ (digLog10 m.natAbs - 27)) : ℕ) : ℤ) ≠ 0 :=
      mul_ne_zero (by split_ifs <;> norm_num) (Int.natCast_ne_zero.mpr (by omega))
    have hle := norm_exp_le _ (e + ((digLog10 m.natAbs - 27 : ℕ) : ℤ)) hne
    have h0 : (0 : ℤ) ≤ ((digLog10 m.natAbs - 27 : ℕ) : ℤ) := Int.natCast_nonneg _
    omega

theorem natAbs_lt_of_ratAbs_lt {M : ℤ} {B : ℕ} (h : |(M : ℚ)| < (B : ℚ)) :
    M.natAbs < B := by
  have habs : |(M : ℚ)| = ((M.natAbs : ℕ) : ℚ) := by simp [Int.cast_natAbs]
  rw [habs] at h
  exact_mod_cast h

theorem align_val {xm ym xe ye : ℤ} (h : xe ≤ ye) :
    ((xm + ym * 10 ^ (ye - xe).toNat : ℤ) : ℚ) * (10 : ℚ) ^ xe =
      (xm : ℚ) * (10 : ℚ) ^ xe + (ym : ℚ) * (10 : ℚ) ^ ye := by
  have ht : (((ye - xe).toNat : ℕ) : ℤ) = ye - xe := Int.toNat_of_nonneg (by omega)
  have hten : (10 : ℚ) ≠ 0 := by norm_num
  push_cast
  rw [add_mul]
  congr 1
  rw [mul_assoc]
  congr 1
  rw [← zpow_natCast (10 : ℚ) (ye - xe).toNat, ← zpow_add₀ hten]
  congr 1
  omega

theorem scale_val {ym xe ye : ℤ} (h : xe ≤ ye) :
    ((ym * 10 ^ (ye - xe).toNat : ℤ) : ℚ) * (10 : ℚ) ^ xe = (ym : ℚ) * (10 : ℚ) ^ ye := by
  have := @align_val 0 ym xe ye h
  simpa using this

theorem dadd_branch (x y : Dec) (h : x.exp ≤ y.exp) (hx8 : -8 ≤ x.exp)
    (hb : |x.toRat| + |y.toRat| < 10 ^ 19) :
    (Dec.roundCtx (x.man + y.man * 10 ^ (y.exp - x.exp).toNat) x.exp).toRat =
      x.toRat + y.toRat := by
  have hval : ((x.man + y.man * 10 ^ (y.exp - x.exp).toNat : ℤ) : ℚ) * (10 : ℚ) ^ x.exp =
      x.toRat + y.toRat := align_val h
  have hzpos : (0 : ℚ) < (10 : ℚ) ^ x.exp := by positivity
  have hmb : (x.man + y.man * 10 ^ (y.exp - x.exp).toNat).natAbs < 10 ^ 28 := by
    apply natAbs_lt_of_ratAbs_lt
    have h3 : |((x.man + y.man * 10 ^ (y.exp - x.exp).toNat : ℤ) : ℚ)| =
        |x.toRat + y.toRat| * (10 : ℚ) ^ (-x.exp) := by
      rw [← hval, abs_mul, abs_of_pos hzpos, zpow_neg, mul_assoc,
        mul_inv_cancel₀ hzpos.ne', mul_one]
    rw [h3]
    have h2 : |x.toRat + y.toRat| ≤ |x.toRat| + |y.toRat| := abs_add _ _
    have hpow : (10 : ℚ) ^ (-x.exp) ≤ (10 : ℚ) ^ (8 : ℤ) :=
      zpow_le_zpow_right₀ (by norm_num) (by omega)
    calc |x.toRat + y.toRat| * (10 : ℚ) ^ (-x.exp)
        ≤ (|x.toRat| + |y.toRat|) * (10 : ℚ) ^ (-x.exp) := by
          exact mul_le_mul_of_nonneg_right h2 (by positivity)
      _ ≤ (|x.toRat| + |y.toRat|) * (10 : ℚ) ^ (8 : ℤ) := by
          exact mul_le_mul_of_nonneg_left hpow (by positivity)
      _ < 10 ^ 19 * (10 : ℚ) ^ (8 : ℤ) := by
          exact mul_lt_mul_of_pos_right hb (by positivity)
      _ < ((10 ^ 28 : ℕ) : ℚ) := by norm_num
  rw [toRat_roundCtx_small _ hmb, hval]

theorem toRat_dadd_exact {x y : Dec} (hx8 : -8 ≤ x.exp) (hy8 : -8 ≤ y.exp)
    (hb : |x.toRat| + |y.toRat| < 10 ^ 19) :
    (Dec.add x y).toRat = x.toRat + y.toRat := by
  unfold Dec.add
  split_ifs with hc
  · exact dadd_branch x y hc hx8 hb
  · have h' : y.exp ≤ x.exp := by omega
    have hb' : |y.toRat| + |x.toRat| < 10 ^ 19 := by linarith
    have := dadd_branch y x h' hy8 hb'
    rw [add_comm (y.man)] at this
    rw [this]
    ring

theorem toRat_dneg (x : Dec) : (Dec.neg x).toRat = -x.toRat := by
  simp [Dec.neg, Dec.toRat]

theorem toRat_dsub_exact {x y : Dec} (hx8 : -8 ≤ x.exp) (hy8 : -8 ≤ y.exp)
    (hb : |x.toRat| + |y.toRat| < 10 ^ 19) :
    (Dec.sub x y).toRat = x.toRat - y.toRat := by
  unfold Dec.sub
  have hb' : |x.toRat| + |(Dec.neg y).toRat| < 10 ^ 19 := by
    rw [toRat_dneg, abs_neg]; exact hb
  rw [toRat_dadd_exact hx8 (show -8 ≤ (Dec.neg y).exp from hy8) hb', toRat_dneg]
  ring

theorem roundCtx_exp_ge8 {m e : ℤ} (he : -8 ≤ e) : -8 ≤ (Dec.roundCtx m e).exp := by
  rcases eq_or_ne m 0 with rfl | hm
  · rw [Dec.roundCtx, if_pos (by norm_num), Dec.norm, if_pos rfl]
    norm_num
  · exact le_trans he (roundCtx_exp_le m e hm)

theorem dadd_exp_ge8 {x y : Dec} (hx : -8 ≤ x.exp) (hy : -8 ≤ y.exp) :
    -8 ≤ (Dec.add x y).exp := by
  unfold Dec.add
  split_ifs with h
  · exact roundCtx_exp_ge8 hx
  · exact roundCtx_exp_ge8 hy

theorem dsub_exp_ge8 {x y : Dec} (hx : -8 ≤ x.exp) (hy : -8 ≤ y.exp) :
    -8 ≤ (Dec.sub x y).exp :=
  dadd_exp_ge8 hx (show -8 ≤ (Dec.neg y).exp from hy)

theorem toRat_dmul_exact {x y : Dec} (hx8 : -8 ≤ x.exp) (hy8 : -8 ≤ y.exp)
    (hb : |x.toRat| * |y.toRat| < 10 ^ 12) :
    (Dec.mul x y).toRat = x.toRat * y.toRat := by
  unfold Dec.mul
  have hten : (10 : ℚ) ≠ 0 := by norm_num
  have hprod : x.toRat * y.toRat = ((x.man * y.man : ℤ) : ℚ) * (10 : ℚ) ^ (x.exp + y.exp) := by
    unfold Dec.toRat
    push_cast
    rw [zpow_add₀ hten]
    ring
  have hzpos : (0 : ℚ) < (10 : ℚ) ^ (x.exp + y.exp) := by positivity
  have hmb : (x.man * y.man).natAbs < 10 ^ 28 := by
    apply natAbs_lt_of_ratAbs_lt
    have h3 : |((x.man * y.man : ℤ) : ℚ)| = |x.toRat * y.toRat| * (10 : ℚ) ^ (-(x.exp + y.exp)) := by
      rw [hprod, abs_mul, abs_of_pos hzpos, zpow_neg, mul_assoc,
        mul_inv_cancel₀ hzpos.ne', mul_one]
    rw [h3, abs_mul]
    have hpow : (10 : ℚ) ^ (-(x.exp + y.exp)) ≤ (10 : ℚ) ^ (16 : ℤ) :=
      zpow_le_zpow_right₀ (by norm_num) (by omega)
    calc |x.toRat| * |y.toRat| * (10 : ℚ) ^ (-(x.exp + y.exp))
        ≤ |x.toRat| * |y.toRat| * (10 : ℚ) ^ (16 : ℤ) := by
          exact mul_le_mul_of_nonneg_left hpow (by positivity)
      _ < 10 ^ 12 * (10 : ℚ) ^ (16 : ℤ) := by
          exact mul_lt_mul_of_pos_right hb (by positivity)
      _ = ((10 ^ 28 : ℕ) : ℚ) := by norm_num
  rw [toRat_roundCtx_small _ hmb, hprod]

theorem roundCtx_pos {m : ℤ} (e : ℤ) (hm : 0 < m) : 0 < (Dec.roundCtx m e).toRat := by
  by_cases h : m.natAbs < 10 ^ 28
  · rw [Dec.roundCtx, if_pos h, toRat_norm]
    apply mul_pos _ (by positivity)
    exact_mod_cast hm
  · rw [Dec.roundCtx, if_neg h]
    show 0 < (Dec.norm ((if m < 0 then (-1 : ℤ) else 1) *
        (rhalf m.natAbs (10 ^ (digLog10 m.natAbs - 27)) : ℤ))
        (e + ((digLog10 m.natAbs - 27 : ℕ) : ℤ))).toRat
    rw [toRat_norm, if_neg (not_lt.mpr hm.le)]
    have ha0 : 0 < m.natAbs := by omega
    obtain ⟨hd1, _⟩ := digLog10_spec m.natAbs ha0
    have hP : 10 ^ (digLog10 m.natAbs - 27) ≤ m.natAbs := by
      calc (10 : ℕ) ^ (digLog10 m.natAbs - 27) ≤ 10 ^ digLog10 m.natAbs :=
            Nat.pow_le_pow_right (by norm_num) (by omega)
        _ ≤ m.natAbs := hd1
    have hq1 : 1 ≤ rhalf m.natAbs (10 ^ (digLog10 m.natAbs - 27)) :=
      rhalf_pos (by positivity) hP
    rw [one_mul]
    apply mul_pos _ (by positivity)
    have hq : (0 : ℤ) < (rhalf m.natAbs (10 ^ (digLog10 m.natAbs - 27)) : ℤ) := by
      exact_mod_cast hq1
    exact_mod_cast hq

theorem toRat_dadd_pos {x y : Dec} (h : 0 < x.toRat + y.toRat) : 0 < (Dec.add x y).toRat := by
  unfold Dec.add
  split_ifs with hc
  · have hval := @align_val x.man y.man x.exp y.exp hc
    have hz : (0 : ℚ) < (10 : ℚ) ^ x.exp := by positivity
    have hM : 0 < x.man + y.man * 10 ^ (y.exp - x.exp).toNat := by
      by_contra hle
      push_neg at hle
      have hle' : ((x.man + y.man * 10 ^ (y.exp - x.exp).toNat : ℤ) : ℚ) ≤ 0 := by
        exact_mod_cast hle
      have hmul : ((x.man + y.man * 10 ^ (y.exp - x.exp).toNat : ℤ) : ℚ) * (10 : ℚ) ^ x.exp ≤ 0 := by
        calc ((x.man + y.man * 10 ^ (y.exp - x.exp).toNat : ℤ) : ℚ) * (10 : ℚ) ^ x.exp
            ≤ 0 * (10 : ℚ) ^ x.exp := mul_le_mul_of_nonneg_right hle' hz.le
          _ = 0 := zero_mul _
      rw [hval] at hmul
      unfold Dec.toRat at h
      linarith
    exact roundCtx_pos _ hM
  · have hc' : y.exp ≤ x.exp := by omega
    have hval := @align_val y.man x.man y.exp x.exp hc'
    have hz : (0 : ℚ) < (10 : ℚ) ^ y.exp := by positivity
    have hM : 0 < x.man * 10 ^ (x.exp - y.exp).toNat + y.man := by
      by_contra hle
      push_neg at hle
      have hle' : ((y.man + x.man * 10 ^ (x.exp - y.exp).toNat : ℤ) : ℚ) ≤ 0 := by
        have hz2 : y.man + x.man * 10 ^ (x.exp - y.exp).toNat ≤ 0 := by omega
        exact_mod_cast hz2
      have hmul : ((y.man + x.man * 10 ^ (x.exp - y.exp).toNat : ℤ) : ℚ) * (10 : ℚ) ^ y.exp ≤ 0 := by
        calc ((y.man + x.man * 10 ^ (x.exp - y.exp).toNat : ℤ) : ℚ) * (10 : ℚ) ^ y.exp
            ≤ 0 * (10 : ℚ) ^ y.exp := mul_le_mul_of_nonneg_right hle' hz.le
          _ = 0 := zero_mul _
      rw [hval] at hmul
      unfold Dec.toRat at h
      linarith
    exact roundCtx_pos _ hM

theorem toRat_dsub_pos {x y : Dec} (h : y.toRat < x.toRat) : 0 < (Dec.sub x y).toRat := by
  unfold Dec.sub
  apply toRat_dadd_pos
  rw [toRat_dneg]
  linarith

theorem dblt_iff (x y : Dec) : Dec.blt x y = true ↔ x.toRat < y.toRat := by
  unfold Dec.blt Dec.toRat
  split_ifs with h
  · simp only [decide_eq_true_eq]
    have hs := @scale_val y.man x.exp y.exp h
    have hz : (0 : ℚ) < (10 : ℚ) ^ x.exp := by positivity
    constructor
    · intro hlt
      have : (x.man : ℚ) < ((y.man * 10 ^ (y.exp - x.exp).toNat : ℤ) : ℚ) := by exact_mod_cast hlt
      have := mul_lt_mul_of_pos_right this hz
      rw [hs] at this
      exact this
    · intro hlt
      rw [← hs] at hlt
      have := lt_of_mul_lt_mul_right hlt hz.le
      exact_mod_cast this
  · simp only [decide_eq_true_eq]
    have h' : y.exp ≤ x.exp := by omega
    have hs := @scale_val x.man y.exp x.exp h'
    have hz : (0 : ℚ) < (10 : ℚ) ^ y.exp := by positivity
    constructor
    · intro hlt
      have : ((x.man * 10 ^ (x.exp - y.exp).toNat : ℤ) : ℚ) < (y.man : ℚ) := by exact_mod_cast hlt
      have := mul_lt_mul_of_pos_right this hz
      rw [hs] at this
      exact this
    · intro hlt
      rw [← hs] at hlt
      have := lt_of_mul_lt_mul_right hlt hz.le
      exact_mod_cast this

theorem dble_iff (x y : Dec) : Dec.ble x y = true ↔ x.toRat ≤ y.toRat := by
  unfold Dec.ble Dec.toRat
  split_ifs with h
  · simp only [decide_eq_true_eq]
    have hs := @scale_val y.man x.exp y.exp h
    have hz : (0 : ℚ) < (10 : ℚ) ^ x.exp := by positivity
    constructor
    · intro hle
      have : (x.man : ℚ) ≤ ((y.man * 10 ^ (y.exp - x.exp).toNat : ℤ) : ℚ) := by exact_mod_cast hle
      have := mul_le_mul_of_nonneg_right this hz.le
      rw [hs] at this
      exact this
    · intro hle
      rw [← hs] at hle
      have := le_of_mul_le_mul_right hle hz
      exact_mod_cast this
  · simp only [decide_eq_true_eq]
    have h' : y.exp ≤ x.exp := by omega
    have hs := @scale_val x.man y.exp x.exp h'
    have hz : (0 : ℚ) < (10 : ℚ) ^ y.exp := by positivity
    constructor
    · intro hle
      have : ((x.man * 10 ^ (x.exp - y.exp).toNat : ℤ) : ℚ) ≤ (y.man : ℚ) := by exact_mod_cast hle
      have := mul_le_mul_of_nonneg_right this hz.le
      rw [hs] at this
      exact this
    · intro hle
      rw [← hs] at hle
      have := le_of_mul_le_mul_right hle hz
      exact_mod_cast this

theorem toRat_dmin (x y : Dec) : (Dec.dmin x y).toRat = min x.toRat y.toRat := by
  unfold Dec.dmin
  split_ifs with h
  · rw [min_eq_right ((dblt_iff y x).mp h).le]
  · rw [min_eq_left]
    have := (dblt_iff y x).not.mp (by simpa using h)
    push_neg at this
    exact this

theorem dmin_cases (x y : Dec) : Dec.dmin x y = x ∨ Dec.dmin x y = y := by
  unfold Dec.dmin
  split_ifs <;> simp

theorem toRat_zero_iff (x : Dec) : x.toRat = 0 ↔ x.man = 0 := by
  unfold Dec.toRat
  constructor
  · intro h
    rcases mul_eq_zero.mp h with h1 | h2
    · exact_mod_cast h1
    · exact absurd h2 (by positivity)
  · intro h
    rw [h]
    simp

theorem rhalf_exact {N D : ℕ} (hD : 0 < D) (hdvd : D ∣ N) : rhalf N D = N / D := by
  have h0 : N % D = 0 := by
    obtain ⟨K, rfl⟩ := hdvd
    exact Nat.mul_mod_right D K
  unfold rhalf
  rw [h0]
  simp [hD]

theorem divC_spec (a b : ℕ) (ha : 0 < a) (hb : 0 < b) :
    (10 : ℚ) ^ divC a b ≤ (a : ℚ) / (b : ℚ) ∧ (a : ℚ) / (b : ℚ) < (10 : ℚ) ^ (divC a b + 1) := by
  obtain ⟨hda1, hda2⟩ := digLog10_spec a ha
  obtain ⟨hdb1, hdb2⟩ := digLog10_spec b hb
  have hbQ : (0 : ℚ) < (b : ℚ) := by exact_mod_cast hb
  have hA1 : (10 : ℚ) ^ (digLog10 a : ℤ) ≤ (a : ℚ) := by
    rw [zpow_natCast]; exact_mod_cast hda1
  have hA2 : (a : ℚ) < (10 : ℚ) ^ ((digLog10 a : ℤ) + 1) := by
    have he : ((digLog10 a : ℤ) + 1) = ((digLog10 a + 1 : ℕ) : ℤ) := by push_cast; ring
    rw [he, zpow_natCast]; exact_mod_cast hda2
  have hB1 : (10 : ℚ) ^ (digLog10 b : ℤ) ≤ (b : ℚ) := by
    rw [zpow_natCast]; exact_mod_cast hdb1
  have hB2 : (b : ℚ) < (10 : ℚ) ^ ((digLog10 b : ℤ) + 1) := by
    have he : ((digLog10 b : ℤ) + 1) = ((digLog10 b + 1 : ℕ) : ℤ) := by push_cast; ring
    rw [he, zpow_natCast]; exact_mod_cast hdb2
  have hten : (10 : ℚ) ≠ 0 := by norm_num
  set c0 : ℤ := (digLog10 a : ℤ) - (digLog10 b : ℤ) with hc0
  have key1 : (a : ℚ) / (b : ℚ) < (10 : ℚ) ^ (c0 + 1) := by
    rw [div_lt_iff₀ hbQ]
    calc (a : ℚ)
        < (10 : ℚ) ^ ((digLog10 a : ℤ) + 1) := hA2
      _ = (10 : ℚ) ^ (c0 + 1) * (10 : ℚ) ^ (digLog10 b : ℤ) := by
          rw [← zpow_add₀ hten]; congr 1; rw [hc0]; ring
      _ ≤ (10 : ℚ) ^ (c0 + 1) * (b : ℚ) := by
          apply mul_le_mul_of_nonneg_left hB1 (by positivity)
  have key2 : (10 : ℚ) ^ (c0 - 1) < (a : ℚ) / (b : ℚ) := by
    rw [lt_div_iff₀ hbQ]
    calc (10 : ℚ) ^ (c0 - 1) * (b : ℚ)
        < (10 : ℚ) ^ (c0 - 1) * (10 : ℚ) ^ ((digLog10 b : ℤ) + 1) := by
          apply mul_lt_mul_of_pos_left hB2 (by positivity)
      _ = (10 : ℚ) ^ (digLog10 a : ℤ) := by
          rw [← zpow_add₀ hten]; congr 1; rw [hc0]; ring
      _ ≤ (a : ℚ) := hA1
  by_cases h : b * 10 ^ digLog10 a ≤ a * 10 ^ digLog10 b
  · have hC : divC a b = c0 := by rw [divC, if_pos h, hc0]
    rw [hC]
    constructor
    · have hQ : ((b : ℚ)) * 10 ^ digLog10 a ≤ (a : ℚ) * 10 ^ digLog10 b := by exact_mod_cast h
      rw [le_div_iff₀ hbQ]
      calc (10 : ℚ) ^ c0 * (b : ℚ)
          = (b : ℚ) * 10 ^ digLog10 a * (10 : ℚ) ^ (-(digLog10 b : ℤ)) := by
            rw [hc0]
            rw [show ((10 : ℚ) ^ (digLog10 a : ℕ)) = (10 : ℚ) ^ ((digLog10 a : ℕ) : ℤ) from
              (zpow_natCast _ _).symm]
            rw [mul_comm ((b : ℚ)) _, mul_assoc, mul_comm ((b : ℚ)) _, ← mul_assoc,
              ← zpow_add₀ hten]
            congr 1
        _ ≤ (a : ℚ) * 10 ^ digLog10 b * (10 : ℚ) ^ (-(digLog10 b : ℤ)) := by
            apply mul_le_mul_of_nonneg_right hQ (by positivity)
        _ = (a : ℚ) := by
            rw [show ((10 : ℚ) ^ (digLog10 b : ℕ)) = (10 : ℚ) ^ ((digLog10 b : ℕ) : ℤ) from
              (zpow_natCast _ _).symm]
            rw [mul_assoc, ← zpow_add₀ hten]
            norm_num
    · exact key1
  · have hC : divC a b = c0 - 1 := by rw [divC, if_neg h, hc0]
    rw [hC]
    constructor
    · exact key2.le
    · have hQ : (a : ℚ) * 10 ^ digLog10 b < (b : ℚ) * 10 ^ digLog10 a := by
        push_neg at h
        exact_mod_cast h
      have hsub : c0 - 1 + 1 = c0 := by ring
      rw [hsub, div_lt_iff₀ hbQ]
      calc (a : ℚ)
          = (a : ℚ) * 10 ^ digLog10 b * (10 : ℚ) ^ (-(digLog10 b : ℤ)) := by
            rw [show ((10 : ℚ) ^ (digLog10 b : ℕ)) = (10 : ℚ) ^ ((digLog10 b : ℕ) : ℤ) from
              (zpow_natCast _ _).symm]
            rw [mul_assoc, ← zpow_add₀ hten]
            norm_num
        _ < (b : ℚ) * 10 ^ digLog10 a * (10 : ℚ) ^ (-(digLog10 b : ℤ)) := by
            apply mul_lt_mul_of_pos_right hQ (by positivity)
        _ = (10 : ℚ) ^ c0 * (b : ℚ) := by
            rw [hc0]
            rw [show ((10 : ℚ) ^ (digLog10 a : ℕ)) = (10 : ℚ) ^ ((digLog10 a : ℕ) : ℤ) from
              (zpow_natCast _ _).symm]
            rw [mul_comm ((b : ℚ)) _, mul_assoc, mul_comm ((b : ℚ)) _, ← mul_assoc,
              ← zpow_add₀ hten]
            congr 1

theorem toRat_ddiv_exact {x y : Dec} (hy : y.man ≠ 0) {mw : ℤ}
    (hmw : x.toRat / y.toRat = (mw : ℚ) / 10 ^ 8) (hbw : mw.natAbs < 10 ^ 14) :
    (Dec.div x y).toRat = x.toRat / y.toRat := by
  rcases eq_or_ne x.man 0 with hx0 | hx0
  · rw [Dec.div, if_neg hy, if_pos hx0]
    have hxv : x.toRat = 0 := (toRat_zero_iff x).mpr hx0
    rw [hxv, zero_div]
    unfold Dec.toRat
    simp
  rw [Dec.div, if_neg hy, if_neg hx0]
  show (Dec.norm ((if (x.man < 0) = (y.man < 0) then (1 : ℤ) else -1) *
      (rhalf (if 0 ≤ 27 - divC x.man.natAbs y.man.natAbs then
          x.man.natAbs * 10 ^ (27 - divC x.man.natAbs y.man.natAbs).toNat
        else x.man.natAbs)
        (if 0 ≤ 27 - divC x.man.natAbs y.man.natAbs then y.man.natAbs
        else y.man.natAbs * 10 ^ (-(27 - divC x.man.natAbs y.man.natAbs)).toNat) : ℤ))
      (x.exp - y.exp + divC x.man.natAbs y.man.natAbs - 27)).toRat = x.toRat / y.toRat
  have hten : (10 : ℚ) ≠ 0 := by norm_num
  have ha : 0 < x.man.natAbs := Int.natAbs_pos.mpr hx0
  have hb : 0 < y.man.natAbs := Int.natAbs_pos.mpr hy
  have haQ : (0 : ℚ) < (x.man.natAbs : ℚ) := by exact_mod_cast ha
  have hbQ : (0 : ℚ) < (y.man.natAbs : ℚ) := by exact_mod_cast hb
  obtain ⟨hc1, hc2⟩ := divC_spec x.man.natAbs y.man.natAbs ha hb
  set c : ℤ := divC x.man.natAbs y.man.natAbs with hc_def
  have habx : |x.toRat| = (x.man.natAbs : ℚ) * (10 : ℚ) ^ x.exp := by
    unfold Dec.toRat
    rw [abs_mul, abs_of_pos (show (0 : ℚ) < (10 : ℚ) ^ x.exp by positivity)]
    congr 1
    simp [Int.cast_natAbs]
  have haby : |y.toRat| = (y.man.natAbs : ℚ) * (10 : ℚ) ^ y.exp := by
    unfold Dec.toRat
    rw [abs_mul, abs_of_pos (show (0 : ℚ) < (10 : ℚ) ^ y.exp by positivity)]
    congr 1
    simp [Int.cast_natAbs]
  have hyv : y.toRat ≠ 0 := fun h => hy ((toRat_zero_iff y).mp h)
  have hxv : x.toRat ≠ 0 := fun h => hx0 ((toRat_zero_iff x).mp h)
  have hv0 : x.toRat / y.toRat ≠ 0 := div_ne_zero hxv hyv
  have hmw0 : mw ≠ 0 := by
    intro hcon
    apply hv0
    rw [hmw, hcon]
    norm_num
  have hEQ1 : ((x.man.natAbs : ℚ) / (y.man.natAbs : ℚ)) * (10 : ℚ) ^ (x.exp - y.exp) =
      (mw.natAbs : ℚ) / 10 ^ 8 := by
    have h1 : |x.toRat / y.toRat| = ((x.man.natAbs : ℚ) / (y.man.natAbs : ℚ)) *
        (10 : ℚ) ^ (x.exp - y.exp) := by
      rw [abs_div, habx, haby, zpow_sub₀ hten, div_mul_div_comm]
    have h2 : |x.toRat / y.toRat| = (mw.natAbs : ℚ) / 10 ^ 8 := by
      rw [hmw, abs_div, abs_of_pos (show (0 : ℚ) < 10 ^ 8 by positivity)]
      congr 1
      simp [Int.cast_natAbs]
    rw [← h1, h2]
  have hcb : c ≤ 5 + (y.exp - x.exp) := by
    have hlt : (x.man.natAbs : ℚ) / (y.man.natAbs : ℚ) < (10 : ℚ) ^ (6 + (y.exp - x.exp)) := by
      have h3 : (x.man.natAbs : ℚ) / (y.man.natAbs : ℚ) =
          ((mw.natAbs : ℚ) / 10 ^ 8) * (10 : ℚ) ^ (y.exp - x.exp) := by
        rw [← hEQ1, mul_assoc, ← zpow_add₀ hten]
        norm_num
      rw [h3]
      have h4 : (mw.natAbs : ℚ) / 10 ^ 8 < (10 : ℚ) ^ (6 : ℤ) := by
        rw [div_lt_iff₀ (by positivity : (0 : ℚ) < 10 ^ 8)]
        have h5 : ((mw.natAbs : ℕ) : ℚ) < ((10 ^ 14 : ℕ) : ℚ) := by exact_mod_cast hbw
        calc (mw.natAbs : ℚ) < ((10 ^ 14 : ℕ) : ℚ) := h5
          _ = (10 : ℚ) ^ (6 : ℤ) * 10 ^ 8 := by norm_num
      calc ((mw.natAbs : ℚ) / 10 ^ 8) * (10 : ℚ) ^ (y.exp - x.exp)
          < (10 : ℚ) ^ (6 : ℤ) * (10 : ℚ) ^ (y.exp - x.exp) := by
            exact mul_lt_mul_of_pos_right h4 (by positivity)
        _ = (10 : ℚ) ^ (6 + (y.exp - x.exp)) := by
            rw [← zpow_add₀ hten (6 : ℤ) (y.exp - x.exp)]
    have := lt_of_le_of_lt hc1 hlt
    have hfin := (zpow_lt_zpow_iff_right₀ (show (1 : ℚ) < 10 by norm_num)).mp this
    omega
  have hE : (0 : ℤ) ≤ y.exp - x.exp + 19 - c := by omega
  have hKQ : ((if 0 ≤ 27 - c then x.man.natAbs * 10 ^ (27 - c).toNat else x.man.natAbs : ℕ) : ℚ) =
      ((if 0 ≤ 27 - c then y.man.natAbs else y.man.natAbs * 10 ^ (-(27 - c)).toNat : ℕ) : ℚ) *
        ((mw.natAbs : ℚ) * (10 : ℚ) ^ (y.exp - x.exp + 19 - c)) := by
    have hq : ((x.man.natAbs : ℚ) / (y.man.natAbs : ℚ)) * (10 : ℚ) ^ (27 - c) =
        (mw.natAbs : ℚ) * (10 : ℚ) ^ (y.exp - x.exp + 19 - c) := by
      have h3 : (x.man.natAbs : ℚ) / (y.man.natAbs : ℚ) =
          ((mw.natAbs : ℚ) / 10 ^ 8) * (10 : ℚ) ^ (y.exp - x.exp) := by
        rw [← hEQ1, mul_assoc, ← zpow_add₀ hten]
        norm_num
      rw [h3]
      have h8 : ((10 : ℚ) ^ (8 : ℕ)) = (10 : ℚ) ^ ((8 : ℕ) : ℤ) := (zpow_natCast _ _).symm
      rw [div_eq_mul_inv, h8, ← zpow_neg]
      rw [mul_assoc, mul_assoc, ← zpow_add₀ hten, ← zpow_add₀ hten]
      congr 2
      omega
    by_cases ht : 0 ≤ 27 - c
    · rw [if_pos ht, if_pos ht]
      push_cast
      have hpowt : ((10 : ℚ) ^ ((27 - c).toNat : ℕ)) = (10 : ℚ) ^ (27 - c) := by
        rw [← zpow_natCast (10 : ℚ) (27 - c).toNat, Int.toNat_of_nonneg ht]
      rw [hpowt]
      have := hq
      field_simp at this ⊢
      linarith [this]
    · rw [if_neg ht, if_neg ht]
      push_cast
      have hpowt : ((10 : ℚ) ^ ((-(27 - c)).toNat : ℕ)) = (10 : ℚ) ^ (c - 27) := by
        rw [← zpow_natCast (10 : ℚ) (-(27 - c)).toNat, Int.toNat_of_nonneg (by omega)]
        congr 1
        omega
      rw [hpowt]
      have h9 : (x.man.natAbs : ℚ) = ((x.man.natAbs : ℚ) / (y.man.natAbs : ℚ)) *
          (10 : ℚ) ^ (27 - c) * ((y.man.natAbs : ℚ) * (10 : ℚ) ^ (c - 27)) := by
        have hcancel : (10 : ℚ) ^ (27 - c) * (10 : ℚ) ^ (c - 27) = 1 := by
          rw [← zpow_add₀ hten (27 - c) (c - 27)]
          norm_num
        have hre : ((x.man.natAbs : ℚ) / (y.man.natAbs : ℚ)) * (10 : ℚ) ^ (27 - c) *
            ((y.man.natAbs : ℚ) * (10 : ℚ) ^ (c - 27)) =
            ((x.man.natAbs : ℚ) / (y.man.natAbs : ℚ)) * (y.man.natAbs : ℚ) *
            ((10 : ℚ) ^ (27 - c) * (10 : ℚ) ^ (c - 27)) := by ring
        rw [hre, hcancel, mul_one, div_mul_cancel₀ _ hbQ.ne']
      rw [h9, hq]
      ring
  have hNat : (if 0 ≤ 27 - c then x.man.natAbs * 10 ^ (27 - c).toNat else x.man.natAbs) =
      (if 0 ≤ 27 - c then y.man.natAbs else y.man.natAbs * 10 ^ (-(27 - c)).toNat) *
        (mw.natAbs * 10 ^ (y.exp - x.exp + 19 - c).toNat) := by
    have hpe : ((10 : ℚ) ^ ((y.exp - x.exp + 19 - c).toNat : ℕ)) =
        (10 : ℚ) ^ (y.exp - x.exp + 19 - c) := by
      rw [← zpow_natCast (10 : ℚ) (y.exp - x.exp + 19 - c).toNat, Int.toNat_of_nonneg hE]
    have : ((if 0 ≤ 27 - c then x.man.natAbs * 10 ^ (27 - c).toNat else x.man.natAbs : ℕ) : ℚ) =
        (((if 0 ≤ 27 - c then y.man.natAbs else y.man.natAbs * 10 ^ (-(27 - c)).toNat) *
          (mw.natAbs * 10 ^ (y.exp - x.exp + 19 - c).toNat) : ℕ) : ℚ) := by
      rw [hKQ]
      push_cast
      rw [hpe]
    exact_mod_cast this
  have hDpos : 0 < (if 0 ≤ 27 - c then y.man.natAbs else y.man.natAbs * 10 ^ (-(27 - c)).toNat) := by
    split_ifs <;> positivity
  have hdvd : (if 0 ≤ 27 - c then y.man.natAbs else y.man.natAbs * 10 ^ (-(27 - c)).toNat) ∣
      (if 0 ≤ 27 - c then x.man.natAbs * 10 ^ (27 - c).toNat else x.man.natAbs) :=
    ⟨_, hNat⟩
  have hK : rhalf (if 0 ≤ 27 - c then x.man.natAbs * 10 ^ (27 - c).toNat else x.man.natAbs)
      (if 0 ≤ 27 - c then y.man.natAbs else y.man.natAbs * 10 ^ (-(27 - c)).toNat) =
      mw.natAbs * 10 ^ (y.exp - x.exp + 19 - c).toNat := by
    rw [rhalf_exact hDpos hdvd, hNat, Nat.mul_div_cancel_left _ hDpos]
  rw [hK, toRat_norm]
  have hsgn : (((if (x.man < 0) = (y.man < 0) then (1 : ℤ) else -1)) : ℚ) * (mw.natAbs : ℚ) =
      (mw : ℚ) := by
    have hzx : (0 : ℚ) < (10 : ℚ) ^ x.exp := by positivity
    have hzy : (0 : ℚ) < (10 : ℚ) ^ y.exp := by positivity
    have hsign : (0 < x.toRat / y.toRat ∧ (x.man < 0) = (y.man < 0)) ∨
        (x.toRat / y.toRat < 0 ∧ (x.man < 0) ≠ (y.man < 0)) := by
      by_cases hxs : x.man < 0 <;> by_cases hys : y.man < 0
      · left
        refine ⟨div_pos_iff.mpr (Or.inr ⟨?_, ?_⟩), by simp [hxs, hys]⟩
        · exact mul_neg_of_neg_of_pos (by exact_mod_cast hxs) hzx
        · exact mul_neg_of_neg_of_pos (by exact_mod_cast hys) hzy
      · right
        have hxneg : x.toRat < 0 := mul_neg_of_neg_of_pos (by exact_mod_cast hxs) hzx
        have hypos : 0 < y.toRat := by
          apply mul_pos _ hzy
          have : 0 < y.man := by omega
          exact_mod_cast this
        refine ⟨?_, by simp [hxs, hys]⟩
        exact div_neg_of_neg_of_pos hxneg hypos
      · right
        have hxpos : 0 < x.toRat := by
          apply mul_pos _ hzx
          have : 0 < x.man := by omega
          exact_mod_cast this
        have hyneg : y.toRat < 0 := mul_neg_of_neg_of_pos (by exact_mod_cast hys) hzy
        refine ⟨?_, by simp [hxs, hys]⟩
        exact div_neg_of_pos_of_neg hxpos hyneg
      · left
        refine ⟨div_pos_iff.mpr (Or.inl ⟨?_, ?_⟩), by simp [hxs, hys]⟩
        · apply mul_pos _ hzx
          have : 0 < x.man := by omega
          exact_mod_cast this
        · apply mul_pos _ hzy
          have : 0 < y.man := by omega
          exact_mod_cast this
    rcases hsign with ⟨hpos, heq⟩ | ⟨hneg, hne⟩
    · rw [if_pos heq]
      rw [hmw] at hpos
      have hmwpos : (0 : ℚ) < (mw : ℚ) := by
        by_contra hcon
        push_neg at hcon
        have : (mw : ℚ) / 10 ^ 8 ≤ 0 := div_nonpos_of_nonpos_of_nonneg hcon (by positivity)
        linarith
      have hmwZ : 0 < mw := by exact_mod_cast hmwpos
      have hQ2 : ((mw.natAbs : ℕ) : ℚ) = (mw : ℚ) := by
        rw [Int.cast_natAbs]
        exact_mod_cast abs_of_pos hmwZ
      rw [Int.cast_one, one_mul, hQ2]
    · rw [if_neg hne]
      rw [hmw] at hneg
      have hmwneg : (mw : ℚ) < 0 := by
        by_contra hcon
        push_neg at hcon
        have : (0 : ℚ) ≤ (mw : ℚ) / 10 ^ 8 := div_nonneg hcon (by positivity)
        linarith
      have hmwZ : mw < 0 := by exact_mod_cast hmwneg
      have hQ2 : ((mw.natAbs : ℕ) : ℚ) = -(mw : ℚ) := by
        rw [Int.cast_natAbs]
        exact_mod_cast abs_of_neg hmwZ
      rw [hQ2]
      ring
  rw [hmw]
  push_cast
  have hpe : ((10 : ℚ) ^ ((y.exp - x.exp + 19 - c).toNat : ℕ)) =
      (10 : ℚ) ^ (y.exp - x.exp + 19 - c) := by
    rw [← zpow_natCast (10 : ℚ) (y.exp - x.exp + 19 - c).toNat, Int.toNat_of_nonneg hE]
  rw [hpe]
  have hfinal : (((if (x.man < 0) = (y.man < 0) then (1 : ℤ) else -1)) : ℚ) *
      ((mw.natAbs : ℚ) * (10 : ℚ) ^ (y.exp - x.exp + 19 - c)) *
      (10 : ℚ) ^ (x.exp - y.exp + c - 27) = (mw : ℚ) / 10 ^ 8 := by
    have h27 : (10 : ℚ) ^ (y.exp - x.exp + 19 - c) * (10 : ℚ) ^ (x.exp - y.exp + c - 27) =
        (10 : ℚ) ^ (-8 : ℤ) := by
      rw [← zpow_add₀ hten]
      congr 1
      ring
    calc (((if (x.man < 0) = (y.man < 0) then (1 : ℤ) else -1)) : ℚ) *
        ((mw.natAbs : ℚ) * (10 : ℚ) ^ (y.exp - x.exp + 19 - c)) *
        (10 : ℚ) ^ (x.exp - y.exp + c - 27)
        = ((((if (x.man < 0) = (y.man < 0) then (1 : ℤ) else -1)) : ℚ) * (mw.natAbs : ℚ)) *
          ((10 : ℚ) ^ (y.exp - x.exp + 19 - c) * (10 : ℚ) ^ (x.exp - y.exp + c - 27)) := by
          ring
      _ = (mw : ℚ) * (10 : ℚ) ^ (-8 : ℤ) := by rw [hsgn, h27]
      _ = (mw : ℚ) / 10 ^ 8 := by
          rw [zpow_neg, div_eq_mul_inv]
          congr 2
          rw [show ((10 : ℚ) ^ (8 : ℤ)) = (10 : ℚ) ^ ((8 : ℕ) : ℤ) by norm_num, zpow_natCast]
  rw [← hfinal]
  simp only [Int.cast_natAbs]
  push_cast
  ring

/-!
### The transaction model

`datetime` values are embedded as (year, month, day) triples compared
lexicographically; only the ordering and the `.year` accessor are used by the
code. Each transaction object carries an `oid` (object identity): Python
passes transactions by reference and `Portfolio.process_sale` mutates
`Buy.quantity` in place, so the heap effects of a run are modelled as a list
of `(oid, new quantity)` overwrites. Python's `list.sort`/`sorted` are stable
sorts, and a stable sort with respect to a total preorder is a unique
function of its input, so they are embedded as `List.insertionSort` (which is
stable and kernel-computable). Validation-issue and error strings are
represented structurally, one constructor per `append`/`raise` site of the
source.
-/

instance {ε α : Type} [DecidableEq ε] [DecidableEq α] : DecidableEq (Except ε α) :=
  fun a b =>
    match a, b with
    | .ok x, .ok y =>
        if h : x = y then isTrue (by rw [h]) else isFalse (by simp [h])
    | .error x, .error y =>
        if h : x = y then isTrue (by rw [h]) else isFalse (by simp [h])
    | .ok _, .error _ => isFalse (by simp)
    | .error _, .ok _ => isFalse (by simp)

structure Date where
  year : ℤ
  month : ℤ
  day : ℤ
deriving DecidableEq

def dateLe (a b : Date) : Prop :=
  a.year < b.year ∨ (a.year = b.year ∧
    (a.month < b.month ∨ (a.month = b.month ∧ a.day ≤ b.day)))

instance : DecidableRel dateLe := fun a b => by unfold dateLe; exact inferInstance

theorem dateLe_total (a b : Date) : dateLe a b ∨ dateLe b a := by
  unfold dateLe; omega

theorem dateLe_trans (a b c : Date) : dateLe a b → dateLe b c → dateLe a c := by
  unfold dateLe; omega

instance : IsTotal Date dateLe := ⟨dateLe_total⟩

instance : IsTrans Date dateLe := ⟨fun a b c => dateLe_trans a b c⟩

/-- The fields of `models/transaction.py`'s `Transaction` dataclass that the
calculators read, plus the dividend subclass's `withholding_tax_pln` and the
object identity `oid`. -/
structure TxData where
  oid : ℕ
  date : Date
  ticker : String
  quantity : Dec
  currency : String
  exchange_rate : Option Dec
  total_value_pln : Option Dec
  fees_pln : Option Dec
  country : Option String
  withholding_tax_pln : Option Dec
deriving DecidableEq

/-- `BuyTransaction` / `SellTransaction` / `DividendTransaction`. -/
inductive Transaction where
  | buy (d : TxData)
  | sell (d : TxData)
  | dividend (d : TxData)
deriving DecidableEq

def Transaction.data : Transaction → TxData
  | .buy d => d
  | .sell d => d
  | .dividend d => d

/-- `models/transaction.py` `FifoMatchResult`: the two transaction references
are kept as object identities. -/
structure FifoMatchResult where
  sellId : ℕ
  buyId : ℕ
  used_quantity : Dec
  income_pln : Dec
  cost_pln : Dec
  profit_loss_pln : Dec
  sell_date : Date
  buy_date : Date
  country : String
  ticker : String
deriving DecidableEq

/-- The exceptions `Portfolio.process_sale` can raise: the two `ValueError`s
it raises itself, and `numericError` for the `TypeError` /
`decimal.InvalidOperation` / `decimal.DivisionByZero` that `None` arithmetic
or a zero divisor raises inside it. -/
inductive SaleError where
  | notInPortfolio (ticker : String)
  | insufficientShares (ticker : String)
  | numericError
deriving DecidableEq

/-- Whether `except ValueError` in `FifoCalculator.calculate` catches the
error. -/
def SaleError.isValueError : SaleError → Bool
  | .notInPortfolio _ => true
  | .insufficientShares _ => true
  | .numericError => false

/-- The validation-issue strings, one constructor per `issues.append` site. -/
inductive Issue where
  | noTransactions
  | noTicker (i : ℕ)
  | invalidQuantity (i : ℕ)
  | noExchangeRate (i : ℕ)
  | noPlnValue (i : ℕ)
  | saleIssue (ticker : String) (e : SaleError)
  | noDividends
  | divNoTicker (i : ℕ)
  | divInvalidQuantity (i : ℕ)
  | divNoExchangeRate (i : ℕ)
  | divNoPlnValue (i : ℕ)
  | divNoCountry (i : ℕ)
deriving DecidableEq

/-- Python `x or Decimal(0)`: `None` and the falsy `Decimal` zero both give
`Decimal(0)`. -/
def orZero : Option Dec → Dec
  | none => Dec.zero
  | some d => if d.man = 0 then Dec.zero else d

/-- Python `x or "Unknown"`: `None` and the falsy empty string both give
`"Unknown"`. -/
def sentinelCountry : Option String → String
  | none => "Unknown"
  | some c => if c = "" then "Unknown" else c

/-- Python `max(Decimal('0'), y)` (numeric comparison; returns `y` only when
`y` is strictly greater). -/
def dmax0 (y : Dec) : Dec := if Dec.blt Dec.zero y then y else Dec.zero

/-! ### `models/portfolio.py` -/

structure PortfolioPosition where
  ticker : String
  purchases : List TxData
deriving DecidableEq

/-- The sort key of `add_purchase`: purchase date. -/
def txLe (a b : TxData) : Prop := dateLe a.date b.date

instance : DecidableRel txLe :=
  fun a b => inferInstanceAs (Decidable (dateLe a.date b.date))

instance : IsTotal TxData txLe := ⟨fun a b => dateLe_total a.date b.date⟩

instance : IsTrans TxData txLe := ⟨fun a b c => dateLe_trans a.date b.date c.date⟩

/-- `PortfolioPosition.add_purchase`: append, then stable-sort by date. -/
def PortfolioPosition.add_purchase (p : PortfolioPosition) (t : TxData) :
    PortfolioPosition :=
  { p with purchases := List.insertionSort txLe (p.purchases ++ [t]) }

/-- `PortfolioPosition.get_total_shares`: `sum(purchase.quantity for ...)`,
which folds `Decimal.__add__` from `0`. -/
def PortfolioPosition.get_total_shares (p : PortfolioPosition) : Dec :=
  p.purchases.foldl (fun s t => Dec.add s t.quantity) Dec.zero

/-- `Portfolio`: the insertion-ordered `positions` dict, keyed by ticker. -/
structure Portfolio where
  positions : List PortfolioPosition
deriving DecidableEq

/-- `Portfolio.add_transaction`. -/
def Portfolio.add_transaction (p : Portfolio) (t : TxData) : Portfolio :=
  if p.positions.any (fun pos => pos.ticker == t.ticker) then
    ⟨p.positions.map (fun pos =>
      if pos.ticker = t.ticker then pos.add_purchase t else pos)⟩
  else
    ⟨p.positions ++ [PortfolioPosition.add_purchase ⟨t.ticker, []⟩ t]⟩

/-- The `while remaining_shares > 0 and position.purchases` loop of
`process_sale`, fuelled (each iteration pops the head lot or zeroes
`remaining_shares`, so `purchases.length + 2` fuel suffices). Returns the
match list (or the raised error), the final `position.purchases` list, and
the in-place quantity overwrites performed on lot objects. -/
def processPurchases (sale : TxData) (perShare : Dec) :
    ℕ → Dec → List TxData →
    Except SaleError (List FifoMatchResult) × List TxData × List (ℕ × Dec)
  | 0, _, purchases => (Except.ok [], purchases, [])
  | f + 1, remaining, purchases =>
    if ¬ Dec.blt Dec.zero remaining then (Except.ok [], purchases, [])
    else
      match purchases with
      | [] => (Except.ok [], [], [])
      | p :: rest =>
        let sh := Dec.dmin remaining p.quantity
        if p.quantity.man = 0 then (Except.error SaleError.numericError, p :: rest, [])
        else
          match p.total_value_pln with
          | none => (Except.error SaleError.numericError, p :: rest, [])
          | some pv =>
            let ratio := Dec.div sh p.quantity
            let income := Dec.mul sh perShare
            let purchase_cost := Dec.mul pv ratio
            let purchase_fees := Dec.mul (orZero p.fees_pln) ratio
            let sale_fees := Dec.mul (orZero sale.fees_pln) (Dec.div sh sale.quantity)
            let total_cost := Dec.add (Dec.add purchase_cost purchase_fees) sale_fees
            let profit_loss := Dec.sub income total_cost
            let result : FifoMatchResult :=
              ⟨sale.oid, p.oid, sh, income, total_cost, profit_loss,
               sale.date, p.date, sentinelCountry sale.country, sale.ticker⟩
            if Dec.blt sh p.quantity then
              let q' := Dec.sub p.quantity sh
              let r := processPurchases sale perShare f (Dec.sub remaining sh)
                ({ p with quantity := q' } :: rest)
              (r.1.map (fun ms => result :: ms), r.2.1, (p.oid, q') :: r.2.2)
            else
              let r := processPurchases sale perShare f (Dec.sub remaining sh) rest
              (r.1.map (fun ms => result :: ms), r.2.1, r.2.2)

/-- `Portfolio.process_sale`. Besides the match list (or raised error) it
returns the portfolio after the call and the in-place lot-quantity
overwrites, both of which Python effects by mutation. -/
def Portfolio.process_sale (port : Portfolio) (sale : TxData) :
    Except SaleError (List FifoMatchResult) × Portfolio × List (ℕ × Dec) :=
  match port.positions.find? (fun pos => pos.ticker == sale.ticker) with
  | none => (Except.error (SaleError.notInPortfolio sale.ticker), port, [])
  | some position =>
    if Dec.blt position.get_total_shares sale.quantity then
      (Except.error (SaleError.insufficientShares sale.ticker), port, [])
    else
      match sale.total_value_pln with
      | none => (Except.error SaleError.numericError, port, [])
      | some sv =>
        if sale.quantity.man = 0 then (Except.error SaleError.numericError, port, [])
        else
          let perShare := Dec.div sv sale.quantity
          let r := processPurchases sale perShare (position.purchases.length + 2)
            sale.quantity position.purchases
          (r.1,
           ⟨port.positions.map (fun pos =>
             if pos.ticker = sale.ticker then { pos with purchases := r.2.1 } else pos)⟩,
           r.2.2)

/-! ### `calculators/fifo_calculator.py` -/

/-- The issues one transaction contributes in `FifoCalculator.validate`. -/
def txIssues (i : ℕ) (t : Transaction) : List Issue :=
  (if t.data.ticker = "" then [Issue.noTicker i] else []) ++
  (if Dec.ble t.data.quantity Dec.zero then [Issue.invalidQuantity i] else []) ++
  (if t.data.exchange_rate = none ∧ t.data.currency ≠ "PLN" then [Issue.noExchangeRate i] else []) ++
  (if t.data.total_value_pln = none then [Issue.noPlnValue i] else [])

def validateLoop : ℕ → List Transaction → List Issue
  | _, [] => []
  | i, t :: rest => txIssues i t ++ validateLoop (i + 1) rest

/-- `FifoCalculator.validate`. -/
def FifoCalculator.validate (transactions : List Transaction) : List Issue :=
  if transactions = [] then [Issue.noTransactions]
  else validateLoop 0 transactions

structure FifoStats where
  buy_count : ℕ
  sell_count : ℕ
  fifo_match_count : ℕ
  tax_year : Option ℤ
deriving DecidableEq

/-- `FifoCalculationResult` (`stats = none` is the empty default dict of the
early-return constructor call). -/
structure FifoCalculationResult where
  matchList : List FifoMatchResult
  portfolio : Portfolio
  stats : Option FifoStats
  issues : List Issue
deriving DecidableEq

/-- The loop state of `FifoCalculator.calculate`, minus the issue list. -/
structure FifoCore where
  portfolio : Portfolio
  matchList : List FifoMatchResult
  stats : FifoStats
  heap : List (ℕ × Dec)
deriving DecidableEq

/-- `tax_year is not None and tx.date.year != tax_year`. -/
def skipYear (tax_year : Option ℤ) (d : Date) : Bool :=
  match tax_year with
  | none => false
  | some y => d.year != y

/-- The transaction loop of `FifoCalculator.calculate`. A `ValueError` from
`process_sale` is converted to an issue; any other error propagates. -/
def processTxList (tax_year : Option ℤ) :
    FifoCore → List Issue → List Transaction → Except SaleError (FifoCore × List Issue)
  | core, issues, [] => Except.ok (core, issues)
  | core, issues, Transaction.buy d :: rest =>
      processTxList tax_year
        { core with portfolio := core.portfolio.add_transaction d,
                    stats := { core.stats with buy_count := core.stats.buy_count + 1 } }
        issues rest
  | core, issues, Transaction.sell d :: rest =>
      if skipYear tax_year d.date then processTxList tax_year core issues rest
      else
        let r := core.portfolio.process_sale d
        match r.1 with
        | Except.ok ms =>
            processTxList tax_year
              { portfolio := r.2.1,
                matchList := core.matchList ++ ms,
                stats := { core.stats with
                           sell_count := core.stats.sell_count + 1,
                           fifo_match_count := core.stats.fifo_match_count + ms.length },
                heap := r.2.2 ++ core.heap }
              issues rest
        | Except.error e =>
            if e.isValueError then
              processTxList tax_year
                { core with portfolio := r.2.1, heap := r.2.2 ++ core.heap }
                (issues ++ [Issue.saleIssue d.ticker e]) rest
            else Except.error e
  | core, issues, Transaction.dividend _ :: rest => processTxList tax_year core issues rest

/-- The sort key of `sorted(transactions, ...)`: transaction date. -/
def transactionLe (a b : Transaction) : Prop := dateLe a.data.date b.data.date

instance : DecidableRel transactionLe :=
  fun a b => inferInstanceAs (Decidable (dateLe a.data.date b.data.date))

instance : IsTotal Transaction transactionLe :=
  ⟨fun a b => dateLe_total a.data.date b.data.date⟩

instance : IsTrans Transaction transactionLe :=
  ⟨fun a b c => dateLe_trans a.data.date b.data.date c.data.date⟩

/-- `sorted(transactions, key=lambda tx: tx.date)` (stable). -/
def sortTransactions (l : List Transaction) : List Transaction :=
  List.insertionSort transactionLe l

def emptyFifoStats (tax_year : Option ℤ) : FifoStats := ⟨0, 0, 0, tax_year⟩

/-- `FifoCalculator.calculate`. The extra `List (ℕ × Dec)` component records
the in-place lot-quantity mutations the run performed on the caller's
transaction objects. -/
def FifoCalculator.calculate (transactions : List Transaction) (tax_year : Option ℤ) :
    Except SaleError (FifoCalculationResult × List (ℕ × Dec)) :=
  let issues := FifoCalculator.validate transactions
  if issues ≠ [] then
    Except.ok ({ matchList := [], portfolio := ⟨[]⟩, stats := none, issues := issues }, [])
  else
    match processTxList tax_year ⟨⟨[]⟩, [], emptyFifoStats tax_year, []⟩ []
        (sortTransactions transactions) with
    | Except.error e => Except.error e
    | Except.ok (core, iss) =>
        Except.ok ({ matchList := core.matchList, portfolio := core.portfolio,
                     stats := some core.stats, issues := iss }, core.heap)

/-- The caller's transaction list as the run's in-place mutations leave it:
each Buy object's quantity is replaced by its most recent overwrite. -/
def heapQuantity (heap : List (ℕ × Dec)) (oid : ℕ) : Option Dec :=
  (heap.find? (fun e => e.1 == oid)).map (fun e => e.2)

def updatedTransactions (l : List Transaction) (heap : List (ℕ × Dec)) :
    List Transaction :=
  l.map fun t =>
    match t with
    | Transaction.buy d =>
        match heapQuantity heap d.oid with
        | some q => Transaction.buy { d with quantity := q }
        | none => Transaction.buy d
    | t => t

/-! ### `calculators/dividend_calculator.py` -/

/-- The issues one dividend contributes in `DividendCalculator.validate`. -/
def divTxIssues (i : ℕ) (d : TxData) : List Issue :=
  (if d.ticker = "" then [Issue.divNoTicker i] else []) ++
  (if Dec.ble d.quantity Dec.zero then [Issue.divInvalidQuantity i] else []) ++
  (if d.exchange_rate = none ∧ d.currency ≠ "PLN" then [Issue.divNoExchangeRate i] else []) ++
  (if d.total_value_pln = none then [Issue.divNoPlnValue i] else []) ++
  (if d.country = none ∨ d.country = some ("") then [Issue.divNoCountry i] else [])

def divValidateLoop : ℕ → List TxData → List Issue
  | _, [] => []
  | i, d :: rest => divTxIssues i d ++ divValidateLoop (i + 1) rest

/-- `[tx for tx in transactions if isinstance(tx, DividendTransaction)]`. -/
def dividendsOf (transactions : List Transaction) : List TxData :=
  transactions.filterMap fun t =>
    match t with
    | Transaction.dividend d => some d
    | _ => none

/-- `DividendCalculator.validate`. -/
def DividendCalculator.validate (transactions : List Transaction) : List Issue :=
  if transactions = [] then [Issue.noTransactions]
  else
    let divs := dividendsOf transactions
    if divs = [] then [Issue.noDividends]
    else divValidateLoop 0 divs

structure DividendSummary where
  country : String
  total_dividend_pln : Dec
  tax_paid_abroad_pln : Dec
  tax_due_poland : Dec
  tax_to_pay : Dec
  transactions : List TxData
deriving DecidableEq

structure DividendStats where
  dividend_count : ℕ
  total_dividend_pln : Dec
  total_tax_paid_abroad_pln : Dec
  total_tax_due_poland : Dec
  total_tax_to_pay : Dec
  tax_year : Option ℤ
deriving DecidableEq

/-- `DividendCalculationResult` (`stats = none` is the empty default dict of
the early-return constructor calls). -/
structure DividendCalculationResult where
  summaries : List DividendSummary
  stats : Option DividendStats
  issues : List Issue
deriving DecidableEq

def newSummary (country : String) : DividendSummary :=
  ⟨country, Dec.zero, Dec.zero, Dec.zero, Dec.zero, []⟩

/-- One grouping-loop iteration's updates to the matched summary. -/
def updateSummary (d : TxData) (s : DividendSummary) : DividendSummary :=
  let s := match d.total_value_pln with
    | some v => { s with total_dividend_pln := Dec.add s.total_dividend_pln v }
    | none => s
  let s := match d.withholding_tax_pln with
    | some w => { s with tax_paid_abroad_pln := Dec.add s.tax_paid_abroad_pln w }
    | none => s
  { s with transactions := s.transactions ++ [d] }

/-- One iteration of the grouping loop of `DividendCalculator.calculate`
(summaries dict in insertion order, plus the stats totals). -/
def divAggStep (acc : List DividendSummary × DividendStats) (d : TxData) :
    List DividendSummary × DividendStats :=
  let country := sentinelCountry d.country
  let sums := if acc.1.any (fun s => s.country == country) then acc.1
              else acc.1 ++ [newSummary country]
  let sums := sums.map (fun s => if s.country = country then updateSummary d s else s)
  let st := acc.2
  let st := match d.total_value_pln with
    | some v => { st with total_dividend_pln := Dec.add st.total_dividend_pln v }
    | none => st
  let st := match d.withholding_tax_pln with
    | some w => { st with total_tax_paid_abroad_pln := Dec.add st.total_tax_paid_abroad_pln w }
    | none => st
  (sums, st)

/-- The finalisation applied to one summary: `tax_due_poland` and
`tax_to_pay`. -/
def finalizeSummary (tax_rate : Dec) (s : DividendSummary) : DividendSummary :=
  let due := Dec.mul s.total_dividend_pln tax_rate
  { s with tax_due_poland := due,
           tax_to_pay := dmax0 (Dec.sub due s.tax_paid_abroad_pln) }

/-- The finalisation loop over the summaries, also folding the stats. -/
def finalizeLoop (tax_rate : Dec) :
    List DividendSummary → DividendStats → List DividendSummary × DividendStats
  | [], st => ([], st)
  | s :: rest, st =>
    let s' := finalizeSummary tax_rate s
    let st := { st with total_tax_due_poland := Dec.add st.total_tax_due_poland s'.tax_due_poland }
    let st := { st with total_tax_to_pay := Dec.add st.total_tax_to_pay s'.tax_to_pay }
    let r := finalizeLoop tax_rate rest st
    (s' :: r.1, r.2)

/-- `DividendCalculator.calculate` (`tax_rate` is the constructor argument,
default `Decimal('0.19')`). -/
def DividendCalculator.calculate (tax_rate : Dec) (transactions : List Transaction)
    (tax_year : Option ℤ) : DividendCalculationResult :=
  let dividend_transactions := dividendsOf transactions
  let dividend_transactions := match tax_year with
    | none => dividend_transactions
    | some y => dividend_transactions.filter (fun d => d.date.year == y)
  let issues := DividendCalculator.validate (dividend_transactions.map Transaction.dividend)
  if issues ≠ [] ∧ Issue.noDividends ∈ issues then
    { summaries := [], stats := none, issues := [] }
  else if issues ≠ [] then
    { summaries := [], stats := none, issues := issues }
  else
    let st0 : DividendStats :=
      ⟨dividend_transactions.length, Dec.zero, Dec.zero, Dec.zero, Dec.zero, tax_year⟩
    let agg := dividend_transactions.foldl divAggStep ([], st0)
    let fin := finalizeLoop tax_rate agg.1 agg.2
    { summaries := fin.1, stats := some fin.2, issues := issues }

/-! ### Helper lemmas about the decimal model -/

theorem toRat_zeroD : Dec.zero.toRat = 0 := by
  simp [Dec.zero, Dec.toRat]

theorem dblt_irrefl (x : Dec) : Dec.blt x x = false := by
  rw [← Bool.not_eq_true, dblt_iff]
  exact lt_irrefl _

theorem blt_zero_iff (r : Dec) : Dec.blt Dec.zero r = true ↔ 0 < r.toRat := by
  rw [dblt_iff, toRat_zeroD]

theorem ble_zero_iff (r : Dec) : Dec.ble r Dec.zero = true ↔ r.toRat ≤ 0 := by
  rw [dble_iff, toRat_zeroD]

theorem dsub_self (x : Dec) : Dec.sub x x = Dec.zero := by
  unfold Dec.sub Dec.add Dec.neg
  rw [if_pos (le_refl x.exp)]
  simp only [sub_self, Int.toNat_zero, pow_zero, mul_one, add_neg_cancel]
  unfold Dec.roundCtx Dec.norm
  norm_num [Dec.zero]

theorem dmax0_nonneg (y : Dec) : 0 ≤ (dmax0 y).toRat := by
  unfold dmax0
  split_ifs with h
  · exact le_of_lt ((blt_zero_iff y).mp h)
  · rw [toRat_zeroD]

theorem dmin_eq_left {r q : Dec} (h : Dec.blt (Dec.dmin r q) q = true) :
    Dec.dmin r q = r := by
  rcases dmin_cases r q with h1 | h1
  · exact h1
  · rw [h1, dblt_irrefl] at h
    exact absurd h (by simp)

theorem dmin_toRat_eq_right {r q : Dec} (h : ¬ Dec.blt (Dec.dmin r q) q = true) :
    (Dec.dmin r q).toRat = q.toRat := by
  rw [dblt_iff] at h
  push_neg at h
  rw [toRat_dmin] at h ⊢
  exact le_antisymm (min_le_right _ _) h

theorem man_ne_zero_of_pos {d : Dec} (h : 0 < d.toRat) : d.man ≠ 0 := by
  intro h0
  rw [← toRat_zero_iff] at h0
  rw [h0] at h
  exact lt_irrefl _ h

/-- Exactness of a `Decimal.__add__` left fold (the embedding of `sum`),
under the no-rounding hypotheses: all exponents at the cent-like grain
`≥ -8` and the total absolute mass under `10 ^ 19`. -/
theorem foldl_dadd_exact : ∀ (l : List Dec) (s : Dec), -8 ≤ s.exp →
    (∀ d ∈ l, -8 ≤ d.exp) →
    |s.toRat| + (l.map (fun d => |d.toRat|)).sum < 10 ^ 19 →
    (l.foldl (fun a d => Dec.add a d) s).toRat = s.toRat + (l.map (fun d => d.toRat)).sum ∧
    -8 ≤ (l.foldl (fun a d => Dec.add a d) s).exp := by
  intro l
  induction l with
  | nil => intro s hs _ _; exact ⟨by simp, hs⟩
  | cons d rest ih =>
    intro s hs hl hb
    simp only [List.map_cons, List.sum_cons] at hb
    have hrest_nonneg : 0 ≤ (rest.map (fun d => |d.toRat|)).sum := by
      apply List.sum_nonneg
      intro x hx
      simp only [List.mem_map] at hx
      obtain ⟨y, _, hy⟩ := hx
      rw [← hy]
      exact abs_nonneg _
    have hd8 : -8 ≤ d.exp := hl d (by simp)
    have hsd : (Dec.add s d).toRat = s.toRat + d.toRat :=
      toRat_dadd_exact hs hd8 (by linarith)
    have hexp : -8 ≤ (Dec.add s d).exp := dadd_exp_ge8 hs hd8
    have hb' : |(Dec.add s d).toRat| + (rest.map (fun d => |d.toRat|)).sum < 10 ^ 19 := by
      have : |(Dec.add s d).toRat| ≤ |s.toRat| + |d.toRat| := by
        rw [hsd]; exact abs_add _ _
      linarith
    obtain ⟨h1, h2⟩ := ih (Dec.add s d) hexp (fun x hx => hl x (by simp [hx])) hb'
    refine ⟨?_, h2⟩
    simp only [List.foldl_cons, List.map_cons, List.sum_cons]
    rw [h1, hsd]
    ring

/-- `get_total_shares` is the exact quantity sum when all lot quantities are
at grain `≥ -8`, positive, and the total is at most `10 ^ 18`. -/
theorem get_total_shares_exact (pos : PortfolioPosition)
    (h8 : ∀ p ∈ pos.purchases, -8 ≤ p.quantity.exp ∧ 0 < p.quantity.toRat)
    (hb : (pos.purchases.map (fun p => p.quantity.toRat)).sum ≤ 10 ^ 18) :
    pos.get_total_shares.toRat = (pos.purchases.map (fun p => p.quantity.toRat)).sum := by
  unfold PortfolioPosition.get_total_shares
  have heq : ∀ q : List TxData, q.foldl (fun s t => Dec.add s t.quantity) Dec.zero =
      (q.map (fun t => t.quantity)).foldl (fun a d => Dec.add a d) Dec.zero := by
    intro q
    rw [List.foldl_map]
  rw [heq]
  have habs : ((pos.purchases.map (fun t => t.quantity)).map (fun d => |d.toRat|)).sum =
      (pos.purchases.map (fun p => p.quantity.toRat)).sum := by
    rw [List.map_map]
    apply congrArg List.sum
    apply List.map_congr_left
    intro p hp
    simp only [Function.comp_apply]
    exact abs_of_pos (h8 p hp).2
  obtain ⟨h1, _⟩ := foldl_dadd_exact (pos.purchases.map (fun t => t.quantity)) Dec.zero
    (by norm_num [Dec.zero])
    (fun d hd => by
      simp only [List.mem_map] at hd
      obtain ⟨p, hp, hdq⟩ := hd
      rw [← hdq]
      exact (h8 p hp).1)
    (by
      rw [toRat_zeroD, habs]
      simp only [abs_zero, zero_add]
      calc (pos.purchases.map (fun p => p.quantity.toRat)).sum
          ≤ 10 ^ 18 := hb
        _ < 10 ^ 19 := by norm_num)
  rw [h1, toRat_zeroD, zero_add, List.map_map]
  apply congrArg List.sum
  apply List.map_congr_left
  intro p _
  simp [Function.comp_apply]

theorem stripZeros_nd (f : ℕ) : ∀ m : ℤ, m ≠ 0 → m.natAbs ≤ 10 ^ f →
    ¬ (10 : ℤ) ∣ (stripZeros f m).1 := by
  induction f with
  | zero =>
    intro m hm hb
    have h1 : m.natAbs = 1 := by
      have h0 : 0 < m.natAbs := Int.natAbs_pos.mpr hm
      omega
    have : m = 1 ∨ m = -1 := by omega
    simp only [stripZeros]
    rcases this with h | h <;> rw [h] <;> decide
  | succ f ih =>
    intro m hm hb
    by_cases h : m % 10 = 0 ∧ m ≠ 0
    · simp only [stripZeros, if_pos h]
      have hdvd : (10 : ℤ) ∣ m := Int.dvd_of_emod_eq_zero h.1
      obtain ⟨k, hk⟩ := hdvd
      have hk0 : k ≠ 0 := by
        intro h0
        rw [h0, mul_zero] at hk
        exact hm hk
      have hdiv : m / 10 = k := by rw [hk]; omega
      have hkb : k.natAbs ≤ 10 ^ f := by
        have : m.natAbs = 10 * k.natAbs := by
          rw [hk, Int.natAbs_mul]
          rfl
        have hpow : (10 : ℕ) ^ (f + 1) = 10 * 10 ^ f := by ring
        omega
      rw [hdiv]
      exact ih k hk0 hkb
    · have hz : stripZeros (f + 1) m = (m, 0) := by
        simp only [stripZeros]
        rw [if_neg h]
      rw [hz]
      intro hdvd
      exact h ⟨Int.emod_eq_zero_of_dvd hdvd, hm⟩

theorem natAbs_le_pow_self (n : ℕ) : n ≤ 10 ^ n := by
  induction n with
  | zero => norm_num
  | succ k ih =>
    have : 10 ^ k < 10 ^ (k + 1) := by
      apply pow_lt_pow_right₀ <;> norm_num
    omega

theorem norm_man_nd (m e : ℤ) :
    (Dec.norm m e).man = 0 ∨ ¬ (10 : ℤ) ∣ (Dec.norm m e).man := by
  unfold Dec.norm
  by_cases hm : m = 0
  · rw [if_pos hm]; left; rfl
  · rw [if_neg hm]
    right
    exact stripZeros_nd m.natAbs m hm (natAbs_le_pow_self m.natAbs)

/-- A `Dec` whose coefficient has no trailing zero and whose value is an
integer multiple of `10 ^ (-8)` has exponent at least `-8`. -/
theorem exp_ge_neg8_of_rep {d : Dec} {mw : ℤ} (hnd : ¬ (10 : ℤ) ∣ d.man)
    (hval : d.toRat = (mw : ℚ) / 10 ^ 8) : -8 ≤ d.exp := by
  by_contra hlt
  push_neg at hlt
  apply hnd
  have hten : (10 : ℚ) ≠ 0 := by norm_num
  set k : ℤ := -(d.exp + 8) with hk
  have hk0 : 0 < k := by omega
  have h1 : (d.man : ℚ) * (10 : ℚ) ^ d.exp * 10 ^ (8 : ℕ) = (mw : ℚ) := by
    unfold Dec.toRat at hval
    rw [hval]
    field_simp
  have h2 : (d.man : ℚ) = (mw : ℚ) * (10 : ℚ) ^ (k.toNat : ℕ) := by
    have hzp : ((10 : ℚ) ^ (k.toNat : ℕ)) = (10 : ℚ) ^ (k : ℤ) := by
      rw [← zpow_natCast (10 : ℚ) k.toNat, Int.toNat_of_nonneg (le_of_lt hk0)]
    have h8 : ((10 : ℚ) ^ (8 : ℕ)) = (10 : ℚ) ^ (8 : ℤ) := by norm_num
    rw [hzp, ← h1, h8, mul_assoc, mul_assoc, ← zpow_add₀ hten (8 : ℤ) k,
      ← zpow_add₀ hten d.exp (8 + k)]
    have hz0 : d.exp + (8 + k) = 0 := by omega
    rw [hz0, zpow_zero, mul_one]
  have h3 : d.man = mw * 10 ^ (k.toNat : ℕ) := by exact_mod_cast h2
  have hkn : 1 ≤ k.toNat := by omega
  refine ⟨mw * 10 ^ (k.toNat - 1), ?_⟩
  rw [h3]
  have : (10 : ℤ) ^ (k.toNat : ℕ) = 10 * 10 ^ (k.toNat - 1) := by
    rw [← pow_succ']
    congr 1
    omega
  rw [this]
  ring

/-- The quotient of two nonzero `Dec`s with an exactly `10 ^ (-8)`-grained
value is returned at grain `≥ -8` (no trailing zeros, so the exponent cannot
sit lower). -/
theorem ddiv_exp_ge8 {x y : Dec} (hy : y.man ≠ 0) (hx : x.man ≠ 0) {mw : ℤ}
    (hmw : x.toRat / y.toRat = (mw : ℚ) / 10 ^ 8) (hbw : mw.natAbs < 10 ^ 14)
    (hmw0 : mw ≠ 0) : -8 ≤ (Dec.div x y).exp := by
  have hval : (Dec.div x y).toRat = (mw : ℚ) / 10 ^ 8 := by
    rw [toRat_ddiv_exact hy hmw hbw, hmw]
  have hne : (Dec.div x y).man ≠ 0 := by
    intro h0
    have h1 : (Dec.div x y).toRat = 0 := (toRat_zero_iff _).mpr h0
    rw [hval] at h1
    have h2 : (mw : ℚ) = 0 := by
      field_simp at h1
      exact_mod_cast h1
    exact hmw0 (by exact_mod_cast h2)
  have hform : ∃ M E, Dec.div x y = Dec.norm M E := by
    unfold Dec.div
    rw [if_neg hy, if_neg hx]
    exact ⟨_, _, rfl⟩
  obtain ⟨M, E, hME⟩ := hform
  have hcases := norm_man_nd M E
  rw [← hME] at hcases
  rcases hcases with h0 | hnd
  · exact absurd h0 hne
  · exact exp_ge_neg8_of_rep hnd hval

theorem processPurchases_nonpos (sale : TxData) (perShare : Dec) (fuel : ℕ)
    (remaining : Dec) (l : List TxData) (h : remaining.toRat ≤ 0) :
    processPurchases sale perShare fuel remaining l = (Except.ok [], l, []) := by
  cases fuel with
  | zero => rfl
  | succ f =>
    have hblt : ¬ Dec.blt Dec.zero remaining = true := by
      rw [blt_zero_iff]
      exact not_lt.mpr h
    simp only [processPurchases]
    rw [if_pos hblt]

theorem processPurchases_error (sale : TxData) (perShare : Dec) :
    ∀ (fuel : ℕ) (remaining : Dec) (l : List TxData) (e : SaleError),
    (processPurchases sale perShare fuel remaining l).1 = Except.error e →
    e = SaleError.numericError := by
  intro fuel
  induction fuel with
  | zero =>
    intro remaining l e h
    simp [processPurchases] at h
  | succ f ih =>
    intro remaining l e h
    simp only [processPurchases] at h
    by_cases h1 : ¬ Dec.blt Dec.zero remaining = true
    · rw [if_pos h1] at h
      simp at h
    · rw [if_neg h1] at h
      rcases l with _ | ⟨p, rest⟩
      · simp at h
      · dsimp only at h
        by_cases h2 : p.quantity.man = 0
        · rw [if_pos h2] at h
          simp at h
          exact h.symm
        · rw [if_neg h2] at h
          rcases hV : p.total_value_pln with _ | pv
          · rw [hV] at h
            simp at h
            exact h.symm
          · rw [hV] at h
            dsimp only at h
            by_cases h3 : Dec.blt (Dec.dmin remaining p.quantity) p.quantity = true
            · rw [if_pos h3] at h
              dsimp only at h
              cases hr : (processPurchases sale perShare f
                  (Dec.sub remaining (Dec.dmin remaining p.quantity))
                  ({ p with quantity := Dec.sub p.quantity (Dec.dmin remaining p.quantity), total_value_pln := some pv } :: rest)).1 with
              | error e2 =>
                rw [hr] at h
                simp [Except.map] at h
                rw [← h]
                exact ih _ _ _ hr
              | ok ms2 =>
                rw [hr] at h
                simp [Except.map] at h
            · rw [if_neg h3] at h
              dsimp only at h
              cases hr : (processPurchases sale perShare f
                  (Dec.sub remaining (Dec.dmin remaining p.quantity)) rest).1 with
              | error e2 =>
                rw [hr] at h
                simp [Except.map] at h
                rw [← h]
                exact ih _ _ _ hr
              | ok ms2 =>
                rw [hr] at h
                simp [Except.map] at h

theorem processPurchases_ok (sale : TxData) (perShare : Dec) :
    ∀ (fuel : ℕ) (remaining : Dec) (l : List TxData),
    (∀ p ∈ l, 0 < p.quantity.toRat ∧ p.total_value_pln ≠ none) →
    ∃ ms ps hp, processPurchases sale perShare fuel remaining l = (Except.ok ms, ps, hp) ∧
      (∀ q ∈ ps, 0 < q.quantity.toRat ∧ q.total_value_pln ≠ none) := by
  intro fuel
  induction fuel with
  | zero =>
    intro remaining l hinv
    exact ⟨[], l, [], rfl, hinv⟩
  | succ f ih =>
    intro remaining l hinv
    by_cases h1 : ¬ Dec.blt Dec.zero remaining = true
    · refine ⟨[], l, [], ?_, hinv⟩
      simp only [processPurchases]
      rw [if_pos h1]
    · rcases l with _ | ⟨p, rest⟩
      · refine ⟨[], [], [], ?_, by simp⟩
        simp only [processPurchases]
        rw [if_neg h1]
      · obtain ⟨hppos, hpV⟩ := hinv p (by simp)
        have h2 : ¬ p.quantity.man = 0 := man_ne_zero_of_pos hppos
        rcases hV : p.total_value_pln with _ | pv
        · exact absurd hV hpV
        · by_cases h3 : Dec.blt (Dec.dmin remaining p.quantity) p.quantity = true
          · have hq' : 0 < (Dec.sub p.quantity (Dec.dmin remaining p.quantity)).toRat := by
              apply toRat_dsub_pos
              rw [← dblt_iff]
              exact h3
            obtain ⟨ms, ps, hp, heq, hinv'⟩ := ih
              (Dec.sub remaining (Dec.dmin remaining p.quantity))
              ({ p with quantity := Dec.sub p.quantity (Dec.dmin remaining p.quantity), total_value_pln := some pv } :: rest)
              (by
                intro q hq
                rcases List.mem_cons.mp hq with h | h
                · rw [h]
                  exact ⟨hq', by simp⟩
                · exact hinv q (by simp [h]))
            exact ⟨_, ps, _, by
              simp only [processPurchases]
              rw [if_neg h1]
              rw [if_neg h2, hV]
              dsimp only
              rw [if_pos h3, heq]
              dsimp only
              simp only [Except.map]
              rfl, hinv'⟩
          · obtain ⟨ms, ps, hp, heq, hinv'⟩ := ih
              (Dec.sub remaining (Dec.dmin remaining p.quantity)) rest
              (fun q hq => hinv q (by simp [hq]))
            exact ⟨_, ps, _, by
              simp only [processPurchases]
              rw [if_neg h1]
              rw [if_neg h2, hV]
              dsimp only
              rw [if_neg h3, heq]
              dsimp only
              simp only [Except.map]
              rfl, hinv'⟩

theorem processPurchases_sellDate (sale : TxData) (perShare : Dec) :
    ∀ (fuel : ℕ) (remaining : Dec) (l : List TxData) (ms : List FifoMatchResult),
    (processPurchases sale perShare fuel remaining l).1 = Except.ok ms →
    ∀ m ∈ ms, m.sell_date = sale.date ∧ m.sellId = sale.oid := by
  intro fuel
  induction fuel with
  | zero =>
    intro remaining l ms h
    simp [processPurchases] at h
    subst h
    simp
  | succ f ih =>
    intro remaining l ms h
    simp only [processPurchases] at h
    by_cases h1 : ¬ Dec.blt Dec.zero remaining = true
    · rw [if_pos h1] at h
      simp at h
      subst h
      simp
    · rw [if_neg h1] at h
      rcases l with _ | ⟨p, rest⟩
      · simp at h
        subst h
        simp
      · dsimp only at h
        by_cases h2 : p.quantity.man = 0
        · rw [if_pos h2] at h
          simp at h
        · rw [if_neg h2] at h
          rcases hV : p.total_value_pln with _ | pv
          · rw [hV] at h
            simp at h
          · rw [hV] at h
            dsimp only at h
            by_cases h3 : Dec.blt (Dec.dmin remaining p.quantity) p.quantity = true
            · rw [if_pos h3] at h
              dsimp only at h
              cases hr : (processPurchases sale perShare f
                  (Dec.sub remaining (Dec.dmin remaining p.quantity))
                  ({ p with quantity := Dec.sub p.quantity (Dec.dmin remaining p.quantity), total_value_pln := some pv } :: rest)).1 with
              | error e2 =>
                rw [hr] at h
                simp [Except.map] at h
              | ok ms2 =>
                rw [hr] at h
                simp [Except.map] at h
                subst h
                intro m hm
                rcases List.mem_cons.mp hm with hmm | hmm
                · rw [hmm]
                  exact ⟨rfl, rfl⟩
                · exact ih _ _ _ hr m hmm
            · rw [if_neg h3] at h
              dsimp only at h
              cases hr : (processPurchases sale perShare f
                  (Dec.sub remaining (Dec.dmin remaining p.quantity)) rest).1 with
              | error e2 =>
                rw [hr] at h
                simp [Except.map] at h
              | ok ms2 =>
                rw [hr] at h
                simp [Except.map] at h
                subst h
                intro m hm
                rcases List.mem_cons.mp hm with hmm | hmm
                · rw [hmm]
                  exact ⟨rfl, rfl⟩
                · exact ih _ _ _ hr m hmm

/-- The structural relation between the matches a sale emits and the lot
list it consumed: the matches pair up with a prefix of the lots in order,
every match but the last consumes its whole lot, and each match's fields
are the ones the loop constructs. -/
def matchesShape (sale : TxData) (perShare : Dec) :
    List FifoMatchResult → List TxData → Prop
  | [], _ => True
  | _ :: _, [] => False
  | m :: ms, p :: ps =>
      m.sellId = sale.oid ∧ m.buyId = p.oid ∧
      m.sell_date = sale.date ∧ m.buy_date = p.date ∧
      m.income_pln = Dec.mul m.used_quantity perShare ∧
      -8 ≤ m.used_quantity.exp ∧ 0 < m.used_quantity.toRat ∧
      m.used_quantity.toRat ≤ p.quantity.toRat ∧
      (ms ≠ [] → m.used_quantity.toRat = p.quantity.toRat) ∧
      matchesShape sale perShare ms ps

/-- The FIFO loop under the no-rounding hypotheses (lot and sale quantities
at grain `≥ -8`, positive, totalling at most `10 ^ 18`): it succeeds, its
matches consume a prefix of the lots in order, and the consumed quantities
sum exactly to the sale quantity. -/
theorem processPurchases_master (sale : TxData) (perShare : Dec) :
    ∀ (fuel : ℕ) (remaining : Dec) (l : List TxData),
    (∀ p ∈ l, -8 ≤ p.quantity.exp ∧ 0 < p.quantity.toRat ∧ p.total_value_pln ≠ none) →
    -8 ≤ remaining.exp → 0 < remaining.toRat →
    remaining.toRat ≤ (l.map (fun p => p.quantity.toRat)).sum →
    (l.map (fun p => p.quantity.toRat)).sum ≤ 10 ^ 18 →
    l.length + 2 ≤ fuel →
    ∃ ms ps hp, processPurchases sale perShare fuel remaining l = (Except.ok ms, ps, hp) ∧
      (ms.map (fun m => m.used_quantity.toRat)).sum = remaining.toRat ∧
      matchesShape sale perShare ms l := by
  intro fuel
  induction fuel with
  | zero =>
    intro remaining l _ _ _ _ _ hf
    omega
  | succ f ih =>
    intro remaining l hinv hr8 hrpos hrle hsum hf
    rcases l with _ | ⟨p, rest⟩
    · exfalso
      simp at hrle
      linarith
    · obtain ⟨hp8, hppos, hpV⟩ := hinv p (by simp)
      have h1 : ¬ ¬ Dec.blt Dec.zero remaining = true :=
        not_not_intro ((blt_zero_iff remaining).mpr hrpos)
      have h2 : ¬ p.quantity.man = 0 := man_ne_zero_of_pos hppos
      rcases hV : p.total_value_pln with _ | pv
      · exact absurd hV hpV
      have hsh8 : -8 ≤ (Dec.dmin remaining p.quantity).exp := by
        rcases dmin_cases remaining p.quantity with h | h <;> rw [h] <;> assumption
      have hshval : (Dec.dmin remaining p.quantity).toRat =
          min remaining.toRat p.quantity.toRat := toRat_dmin _ _
      have hshpos : 0 < (Dec.dmin remaining p.quantity).toRat := by
        rw [hshval]; exact lt_min hrpos hppos
      have hshle : (Dec.dmin remaining p.quantity).toRat ≤ p.quantity.toRat := by
        rw [hshval]; exact min_le_right _ _
      have hshler : (Dec.dmin remaining p.quantity).toRat ≤ remaining.toRat := by
        rw [hshval]; exact min_le_left _ _
      have hrest_sum_nonneg : 0 ≤ (rest.map (fun p => p.quantity.toRat)).sum := by
        apply List.sum_nonneg
        intro x hx
        simp only [List.mem_map] at hx
        obtain ⟨q, hq, hxq⟩ := hx
        rw [← hxq]
        exact le_of_lt (hinv q (by simp [hq])).2.1
      simp only [List.map_cons, List.sum_cons] at hrle hsum
      have habs_sub : |remaining.toRat| + |(Dec.dmin remaining p.quantity).toRat| < 10 ^ 19 := by
        rw [abs_of_pos hrpos, abs_of_pos hshpos]
        have h19 : (10 : ℚ) ^ 18 + 10 ^ 18 < 10 ^ 19 := by norm_num
        linarith
      have hsub_exact : (Dec.sub remaining (Dec.dmin remaining p.quantity)).toRat =
          remaining.toRat - (Dec.dmin remaining p.quantity).toRat :=
        toRat_dsub_exact hr8 hsh8 habs_sub
      by_cases h3 : Dec.blt (Dec.dmin remaining p.quantity) p.quantity = true
      · have hshr : Dec.dmin remaining p.quantity = remaining := dmin_eq_left h3
        have hz : Dec.sub remaining (Dec.dmin remaining p.quantity) = Dec.zero := by
          rw [hshr]
          exact dsub_self remaining
        have hinner : processPurchases sale perShare f
            (Dec.sub remaining (Dec.dmin remaining p.quantity))
            ({ p with quantity := Dec.sub p.quantity (Dec.dmin remaining p.quantity), total_value_pln := some pv } :: rest) =
            (Except.ok [],
             { p with quantity := Dec.sub p.quantity (Dec.dmin remaining p.quantity), total_value_pln := some pv } :: rest,
             []) := by
          rw [hz]
          exact processPurchases_nonpos _ _ _ _ _ (by rw [toRat_zeroD])
        exact ⟨_, _, _,
          by
            show processPurchases sale perShare (f + 1) remaining (p :: rest) = _
            simp only [processPurchases]
            rw [if_neg h1]
            rw [if_neg h2, hV]
            dsimp only
            rw [if_pos h3, hinner]
            dsimp only
            simp only [Except.map]
            rfl,
          by
            simp only [List.map_cons, List.map_nil, List.sum_cons, List.sum_nil, add_zero]
            show (Dec.dmin remaining p.quantity).toRat = remaining.toRat
            rw [hshr],
          by
            show _ ∧ _ ∧ _ ∧ _ ∧ _ ∧ _ ∧ _ ∧ _ ∧ _ ∧ _
            exact ⟨rfl, rfl, rfl, rfl, rfl, hsh8, hshpos, hshle, fun hne => absurd rfl hne, trivial⟩⟩
      · have hshq : (Dec.dmin remaining p.quantity).toRat = p.quantity.toRat :=
          dmin_toRat_eq_right h3
        by_cases hpos' : 0 < (Dec.sub remaining (Dec.dmin remaining p.quantity)).toRat
        · obtain ⟨ms, ps, hp, heq, hsum_ms, hshape⟩ := ih
            (Dec.sub remaining (Dec.dmin remaining p.quantity)) rest
            (fun q hq => hinv q (by simp [hq]))
            (dsub_exp_ge8 hr8 hsh8) hpos'
            (by rw [hsub_exact, hshq]; linarith)
            (by linarith)
            (by simp at hf; omega)
          exact ⟨_, _, _,
            by
              show processPurchases sale perShare (f + 1) remaining (p :: rest) = _
              simp only [processPurchases]
              rw [if_neg h1]
              rw [if_neg h2, hV]
              dsimp only
              rw [if_neg h3, heq]
              dsimp only
              simp only [Except.map]
              rfl,
            by
              simp only [List.map_cons, List.sum_cons]
              show (Dec.dmin remaining p.quantity).toRat +
                (ms.map (fun m => m.used_quantity.toRat)).sum = remaining.toRat
              rw [hsum_ms, hsub_exact]
              ring,
            by
              show _ ∧ _ ∧ _ ∧ _ ∧ _ ∧ _ ∧ _ ∧ _ ∧ _ ∧ _
              exact ⟨rfl, rfl, rfl, rfl, rfl, hsh8, hshpos, hshle, fun _ => hshq, hshape⟩⟩
        · push_neg at hpos'
          have hinner : processPurchases sale perShare f
              (Dec.sub remaining (Dec.dmin remaining p.quantity)) rest =
              (Except.ok [], rest, []) :=
            processPurchases_nonpos _ _ _ _ _ hpos'
          have hshr : (Dec.dmin remaining p.quantity).toRat = remaining.toRat := by
            rw [hsub_exact] at hpos'
            linarith
          exact ⟨_, _, _,
            by
              show processPurchases sale perShare (f + 1) remaining (p :: rest) = _
              simp only [processPurchases]
              rw [if_neg h1]
              rw [if_neg h2, hV]
              dsimp only
              rw [if_neg h3, hinner]
              dsimp only
              simp only [Except.map]
              rfl,
            by
              simp only [List.map_cons, List.map_nil, List.sum_cons, List.sum_nil, add_zero]
              show (Dec.dmin remaining p.quantity).toRat = remaining.toRat
              exact hshr,
            by
            show _ ∧ _ ∧ _ ∧ _ ∧ _ ∧ _ ∧ _ ∧ _ ∧ _ ∧ _
            exact ⟨rfl, rfl, rfl, rfl, rfl, hsh8, hshpos, hshle, fun hne => absurd rfl hne, trivial⟩⟩

/-- Lifting of the loop lemma through `Portfolio.process_sale`: under the
no-rounding hypotheses the sale succeeds, consumes the position's lots
oldest-first, and its used quantities sum exactly to the sale quantity. -/
theorem process_sale_master (port : Portfolio) (sale : TxData)
    (position : PortfolioPosition) (sv : Dec)
    (hfind : port.positions.find? (fun pos => pos.ticker == sale.ticker) = some position)
    (hlots : ∀ p ∈ position.purchases,
      -8 ≤ p.quantity.exp ∧ 0 < p.quantity.toRat ∧ p.total_value_pln ≠ none)
    (hq8 : -8 ≤ sale.quantity.exp) (hqpos : 0 < sale.quantity.toRat)
    (hV : sale.total_value_pln = some sv)
    (hsuff : sale.quantity.toRat ≤ (position.purchases.map (fun p => p.quantity.toRat)).sum)
    (hbound : (position.purchases.map (fun p => p.quantity.toRat)).sum ≤ 10 ^ 18) :
    ∃ ms, (port.process_sale sale).1 = Except.ok ms ∧
      (ms.map (fun m => m.used_quantity.toRat)).sum = sale.quantity.toRat ∧
      matchesShape sale (Dec.div sv sale.quantity) ms position.purchases := by
  have htot : position.get_total_shares.toRat =
      (position.purchases.map (fun p => p.quantity.toRat)).sum :=
    get_total_shares_exact position (fun p hp => ⟨(hlots p hp).1, (hlots p hp).2.1⟩) hbound
  have hblt : ¬ Dec.blt position.get_total_shares sale.quantity = true := by
    rw [dblt_iff, htot]
    exact not_lt.mpr hsuff
  have hq0 : ¬ sale.quantity.man = 0 := man_ne_zero_of_pos hqpos
  obtain ⟨ms, ps, hp, heq, hsum, hshape⟩ :=
    processPurchases_master sale (Dec.div sv sale.quantity)
      (position.purchases.length + 2) sale.quantity position.purchases
      hlots hq8 hqpos hsuff hbound (le_refl _)
  refine ⟨ms, ?_, hsum, hshape⟩
  unfold Portfolio.process_sale
  rw [hfind]
  dsimp only
  rw [if_neg hblt, hV]
  dsimp only
  rw [if_neg hq0]
  dsimp only
  rw [heq]

theorem matchesShape_mem_date (sale : TxData) (perShare : Dec) :
    ∀ (ms : List FifoMatchResult) (lots : List TxData),
    matchesShape sale perShare ms lots → ∀ m ∈ ms, ∃ q ∈ lots, m.buy_date = q.date := by
  intro ms
  induction ms with
  | nil =>
    intro lots _ m hm
    simp at hm
  | cons m0 ms ih =>
    intro lots hshape m hm
    rcases lots with _ | ⟨p, ps⟩
    · simp [matchesShape] at hshape
    · simp only [matchesShape] at hshape
      obtain ⟨_, _, _, hbd, _, _, _, _, _, hrec⟩ := hshape
      rcases List.mem_cons.mp hm with h | h
      · exact ⟨p, by simp, by rw [h]; exact hbd⟩
      · obtain ⟨q, hq, hqd⟩ := ih ps hrec m h
        exact ⟨q, by simp [hq], hqd⟩

/-- Matches of one sale are ordered by purchase date whenever the consumed
lot list is. -/
theorem matchesShape_pairwise (sale : TxData) (perShare : Dec) :
    ∀ (ms : List FifoMatchResult) (lots : List TxData),
    matchesShape sale perShare ms lots → List.Pairwise txLe lots →
    List.Pairwise (fun m1 m2 => dateLe m1.buy_date m2.buy_date) ms := by
  intro ms
  induction ms with
  | nil =>
    intro lots _ _
    simp
  | cons m0 ms ih =>
    intro lots hshape hpw
    rcases lots with _ | ⟨p, ps⟩
    · simp [matchesShape] at hshape
    · simp only [matchesShape] at hshape
      obtain ⟨_, _, _, hbd, _, _, _, _, _, hrec⟩ := hshape
      rcases List.pairwise_cons.mp hpw with ⟨hhead, htail⟩
      refine List.Pairwise.cons ?_ (ih ps hrec htail)
      intro m2 hm2
      obtain ⟨q, hq, hqd⟩ := matchesShape_mem_date sale perShare ms ps hrec m2 hm2
      rw [hbd, hqd]
      exact hhead q hq

/-- The unconditional structural consumption relation between the matches a
sale emits and the lot list it consumed: the matches pair up with a prefix
of the lots in order, no match takes more than its lot holds, and every
match but the last takes its whole lot.  Unlike `matchesShape` it carries
no numeric well-formedness facts, so the loop establishes it for every
successful run, whatever the operand magnitudes. -/
def consumedShape (sale : TxData) : List FifoMatchResult → List TxData → Prop
  | [], _ => True
  | _ :: _, [] => False
  | m :: ms, p :: ps =>
      m.sellId = sale.oid ∧ m.buyId = p.oid ∧
      m.sell_date = sale.date ∧ m.buy_date = p.date ∧
      m.used_quantity.toRat ≤ p.quantity.toRat ∧
      (ms ≠ [] → m.used_quantity.toRat = p.quantity.toRat) ∧
      consumedShape sale ms ps

/-- Every successful `processPurchases` run — at any fuel, with operands of
any magnitude — consumes its lot list in `consumedShape` order.  The
partial-consumption branch picks `shares_to_use = remaining_shares`, so it
re-enters the loop with `remaining - remaining = 0` and is always the last
match; the full-consumption branch takes exactly the lot's quantity by
definition of `min`. -/
theorem processPurchases_shape (sale : TxData) (perShare : Dec) :
    ∀ (fuel : ℕ) (remaining : Dec) (l : List TxData) (ms : List FifoMatchResult),
    (processPurchases sale perShare fuel remaining l).1 = Except.ok ms →
    consumedShape sale ms l := by
  intro fuel
  induction fuel with
  | zero =>
    intro remaining l ms h
    simp [processPurchases] at h
    subst h
    simp [consumedShape]
  | succ f ih =>
    intro remaining l ms h
    simp only [processPurchases] at h
    by_cases h1 : ¬ Dec.blt Dec.zero remaining = true
    · rw [if_pos h1] at h
      simp at h
      subst h
      simp [consumedShape]
    · rw [if_neg h1] at h
      rcases l with _ | ⟨p, rest⟩
      · simp at h
        subst h
        simp [consumedShape]
      · dsimp only at h
        by_cases h2 : p.quantity.man = 0
        · rw [if_pos h2] at h
          simp at h
        · rw [if_neg h2] at h
          rcases hV : p.total_value_pln with _ | pv
          · rw [hV] at h
            simp at h
          · rw [hV] at h
            dsimp only at h
            by_cases h3 : Dec.blt (Dec.dmin remaining p.quantity) p.quantity = true
            · rw [if_pos h3] at h
              dsimp only at h
              have hz : (Dec.sub remaining (Dec.dmin remaining p.quantity)).toRat ≤ 0 := by
                rw [dmin_eq_left h3, dsub_self, toRat_zeroD]
              rw [processPurchases_nonpos sale perShare f
                (Dec.sub remaining (Dec.dmin remaining p.quantity))
                ({ p with quantity := Dec.sub p.quantity (Dec.dmin remaining p.quantity), total_value_pln := some pv } :: rest) hz] at h
              simp [Except.map] at h
              subst h
              show _ ∧ _ ∧ _ ∧ _ ∧ _ ∧ _ ∧ _
              exact ⟨rfl, rfl, rfl, rfl,
                by rw [toRat_dmin]; exact min_le_right _ _,
                fun hc => absurd rfl hc, trivial⟩
            · rw [if_neg h3] at h
              dsimp only at h
              cases hr : (processPurchases sale perShare f
                  (Dec.sub remaining (Dec.dmin remaining p.quantity)) rest).1 with
              | error e2 =>
                rw [hr] at h
                simp [Except.map] at h
              | ok ms2 =>
                rw [hr] at h
                simp [Except.map] at h
                subst h
                show _ ∧ _ ∧ _ ∧ _ ∧ _ ∧ _ ∧ _
                exact ⟨rfl, rfl, rfl, rfl,
                  le_of_eq (dmin_toRat_eq_right h3),
                  fun _ => dmin_toRat_eq_right h3, ih _ _ _ hr⟩

/-- Every successful `process_sale` call — with no numeric hypotheses at
all — finds a position for the ticker and consumes that position's lot list
in `consumedShape` order. -/
theorem process_sale_shape (port : Portfolio) (sale : TxData)
    (ms : List FifoMatchResult)
    (h : (port.process_sale sale).1 = Except.ok ms) :
    ∃ position,
      port.positions.find? (fun pos => pos.ticker == sale.ticker) = some position ∧
      consumedShape sale ms position.purchases := by
  unfold Portfolio.process_sale at h
  cases hfind : port.positions.find? (fun pos => pos.ticker == sale.ticker) with
  | none =>
    rw [hfind] at h
    simp at h
  | some position =>
    rw [hfind] at h
    dsimp only at h
    by_cases hblt : Dec.blt position.get_total_shares sale.quantity = true
    · rw [if_pos hblt] at h
      simp at h
    · rw [if_neg hblt] at h
      cases hV : sale.total_value_pln with
      | none =>
        rw [hV] at h
        simp at h
      | some sv =>
        rw [hV] at h
        dsimp only at h
        by_cases hq0 : sale.quantity.man = 0
        · rw [if_pos hq0] at h
          simp at h
        · rw [if_neg hq0] at h
          dsimp only at h
          exact ⟨position, rfl,
            processPurchases_shape sale (Dec.div sv sale.quantity) _ _ _ ms h⟩

theorem consumedShape_mem_date (sale : TxData) :
    ∀ (ms : List FifoMatchResult) (lots : List TxData),
    consumedShape sale ms lots → ∀ m ∈ ms, ∃ q ∈ lots, m.buy_date = q.date := by
  intro ms
  induction ms with
  | nil =>
    intro lots _ m hm
    simp at hm
  | cons m0 ms ih =>
    intro lots hshape m hm
    rcases lots with _ | ⟨p, ps⟩
    · simp [consumedShape] at hshape
    · simp only [consumedShape] at hshape
      obtain ⟨_, _, _, hbd, _, _, hrec⟩ := hshape
      rcases List.mem_cons.mp hm with h | h
      · exact ⟨p, by simp, by rw [h]; exact hbd⟩
      · obtain ⟨q, hq, hqd⟩ := ih ps hrec m h
        exact ⟨q, by simp [hq], hqd⟩

/-- Matches of one sale are ordered by purchase date whenever the consumed
lot list is — unconditionally on the numeric side. -/
theorem consumedShape_pairwise (sale : TxData) :
    ∀ (ms : List FifoMatchResult) (lots : List TxData),
    consumedShape sale ms lots → List.Pairwise txLe lots →
    List.Pairwise (fun m1 m2 => dateLe m1.buy_date m2.buy_date) ms := by
  intro ms
  induction ms with
  | nil =>
    intro lots _ _
    simp
  | cons m0 ms ih =>
    intro lots hshape hpw
    rcases lots with _ | ⟨p, ps⟩
    · simp [consumedShape] at hshape
    · simp only [consumedShape] at hshape
      obtain ⟨_, _, _, hbd, _, _, hrec⟩ := hshape
      rcases List.pairwise_cons.mp hpw with ⟨hhead, htail⟩
      refine List.Pairwise.cons ?_ (ih ps hrec htail)
      intro m2 hm2
      obtain ⟨q, hq, hqd⟩ := consumedShape_mem_date sale ms ps hrec m2 hm2
      rw [hbd, hqd]
      exact hhead q hq

theorem ble_false_pos {q : Dec} (h : Dec.ble q Dec.zero = false) : 0 < q.toRat := by
  have h1 : ¬ (Dec.ble q Dec.zero = true) := by
    rw [h]
    simp
  rw [ble_zero_iff] at h1
  exact lt_of_not_le h1

/-- The invariant `FifoCalculator.calculate` maintains on its portfolio:
every lot has positive quantity and a present PLN value (validation
guarantees it for incoming lots, and partial consumption preserves it). -/
def portInv (port : Portfolio) : Prop :=
  ∀ pos ∈ port.positions, ∀ p ∈ pos.purchases,
    0 < p.quantity.toRat ∧ p.total_value_pln ≠ none

theorem portInv_add_transaction {port : Portfolio} {t : TxData}
    (hinv : portInv port) (ht : 0 < t.quantity.toRat ∧ t.total_value_pln ≠ none) :
    portInv (port.add_transaction t) := by
  unfold Portfolio.add_transaction
  split_ifs with hmem
  · intro pos hpos p hp
    simp only [List.mem_map] at hpos
    obtain ⟨pos0, hpos0, hpos0e⟩ := hpos
    by_cases he : pos0.ticker = t.ticker
    · rw [if_pos he] at hpos0e
      rw [← hpos0e] at hp
      unfold PortfolioPosition.add_purchase at hp
      simp only at hp
      rw [List.mem_insertionSort] at hp
      rcases List.mem_append.mp hp with h | h
      · exact hinv pos0 hpos0 p h
      · simp at h
        rw [h]
        exact ht
    · rw [if_neg he] at hpos0e
      rw [← hpos0e] at hp
      exact hinv pos0 hpos0 p hp
  · intro pos hpos p hp
    rcases List.mem_append.mp hpos with h | h
    · exact hinv pos h p hp
    · simp at h
      rw [h] at hp
      unfold PortfolioPosition.add_purchase at hp
      simp only at hp
      rw [List.mem_insertionSort] at hp
      simp at hp
      rw [hp]
      exact ht

theorem portInv_process_sale (port : Portfolio) (sale : TxData) (hinv : portInv port) :
    portInv (port.process_sale sale).2.1 := by
  unfold Portfolio.process_sale
  cases hfind : port.positions.find? (fun pos => pos.ticker == sale.ticker) with
  | none =>
    dsimp only
    exact hinv
  | some position =>
    dsimp only
    by_cases hblt : Dec.blt position.get_total_shares sale.quantity = true
    · rw [if_pos hblt]
      exact hinv
    · rw [if_neg hblt]
      cases hV : sale.total_value_pln with
      | none =>
        dsimp only
        exact hinv
      | some sv =>
        dsimp only
        by_cases hq0 : sale.quantity.man = 0
        · rw [if_pos hq0]
          exact hinv
        · rw [if_neg hq0]
          dsimp only
          obtain ⟨ms, ps, hp, heq, hinv'⟩ := processPurchases_ok sale (Dec.div sv sale.quantity)
            (position.purchases.length + 2) sale.quantity position.purchases
            (fun p hp => hinv position (List.mem_of_find?_eq_some hfind) p hp)
          rw [heq]
          dsimp only
          intro pos hpos p hp
          simp only [List.mem_map] at hpos
          obtain ⟨pos0, hpos0, hpos0e⟩ := hpos
          by_cases he : pos0.ticker = sale.ticker
          · rw [if_pos he] at hpos0e
            rw [← hpos0e] at hp
            exact hinv' p hp
          · rw [if_neg he] at hpos0e
            rw [← hpos0e] at hp
            exact hinv pos0 hpos0 p hp

/-- A `ValueError` raised by `process_sale` happens before any mutation:
the portfolio and the heap come back unchanged. -/
theorem process_sale_valueError (port : Portfolio) (sale : TxData) (e : SaleError)
    (h : (port.process_sale sale).1 = Except.error e) (he : e.isValueError = true) :
    port.process_sale sale = (Except.error e, port, []) := by
  unfold Portfolio.process_sale at h ⊢
  cases hfind : port.positions.find? (fun pos => pos.ticker == sale.ticker) with
  | none =>
    rw [hfind] at h
    dsimp only at h
    simp at h
    rw [← h]
  | some position =>
    rw [hfind] at h
    dsimp only at h ⊢
    by_cases hblt : Dec.blt position.get_total_shares sale.quantity = true
    · rw [if_pos hblt] at h
      simp at h
      rw [if_pos hblt, ← h]
    · rw [if_neg hblt] at h
      cases hV : sale.total_value_pln with
      | none =>
        rw [hV] at h
        dsimp only at h
        simp at h
        rw [← h] at he
        simp [SaleError.isValueError] at he
      | some sv =>
        rw [hV] at h
        dsimp only at h
        by_cases hq0 : sale.quantity.man = 0
        · rw [if_pos hq0] at h
          simp at h
          rw [← h] at he
          simp [SaleError.isValueError] at he
        · rw [if_neg hq0] at h
          dsimp only at h
          have := processPurchases_error sale (Dec.div sv sale.quantity)
            (position.purchases.length + 2) sale.quantity position.purchases e h
          rw [this] at he
          simp [SaleError.isValueError] at he

theorem process_sale_valueError_only (port : Portfolio) (sale : TxData)
    (hinv : portInv port) (hV : sale.total_value_pln ≠ none) (hq : 0 < sale.quantity.toRat)
    (e : SaleError) (h : (port.process_sale sale).1 = Except.error e) :
    e.isValueError = true := by
  unfold Portfolio.process_sale at h
  cases hfind : port.positions.find? (fun pos => pos.ticker == sale.ticker) with
  | none =>
    rw [hfind] at h
    dsimp only at h
    simp at h
    rw [← h]
    rfl
  | some position =>
    rw [hfind] at h
    dsimp only at h
    by_cases hblt : Dec.blt position.get_total_shares sale.quantity = true
    · rw [if_pos hblt] at h
      simp at h
      rw [← h]
      rfl
    · rw [if_neg hblt] at h
      rcases hVs : sale.total_value_pln with _ | sv
      · exact absurd hVs hV
      · rw [hVs] at h
        dsimp only at h
        have hq0 : ¬ sale.quantity.man = 0 := man_ne_zero_of_pos hq
        rw [if_neg hq0] at h
        dsimp only at h
        obtain ⟨ms, ps, hp, heq, _⟩ := processPurchases_ok sale (Dec.div sv sale.quantity)
          (position.purchases.length + 2) sale.quantity position.purchases
          (fun p hp => hinv position (List.mem_of_find?_eq_some hfind) p hp)
        rw [heq] at h
        simp at h

theorem validateLoop_spec : ∀ (l : List Transaction) (i : ℕ), validateLoop i l = [] →
    ∀ t ∈ l, Dec.ble t.data.quantity Dec.zero = false ∧ t.data.total_value_pln ≠ none := by
  intro l
  induction l with
  | nil =>
    intro i _ t ht
    simp at ht
  | cons t0 rest ih =>
    intro i h t ht
    simp only [validateLoop] at h
    obtain ⟨h1, h2⟩ := List.append_eq_nil.mp h
    rcases List.mem_cons.mp ht with h3 | h3
    · unfold txIssues at h1
      obtain ⟨habc, hd⟩ := List.append_eq_nil.mp h1
      obtain ⟨hab, hc⟩ := List.append_eq_nil.mp habc
      obtain ⟨ha, hb⟩ := List.append_eq_nil.mp hab
      rw [h3]
      constructor
      · by_cases hq : Dec.ble t0.data.quantity Dec.zero = true
        · rw [if_pos hq] at hb
          simp at hb
        · rw [Bool.not_eq_true] at hq
          exact hq
      · intro hVn
        rw [if_pos hVn] at hd
        simp at hd
    · exact ih (i + 1) h2 t h3

theorem validate_spec (l : List Transaction) (hv : FifoCalculator.validate l = []) :
    ∀ t ∈ l, Dec.ble t.data.quantity Dec.zero = false ∧ t.data.total_value_pln ≠ none := by
  unfold FifoCalculator.validate at hv
  split_ifs at hv with h
  exact validateLoop_spec l 0 hv

theorem processTxList_ok (ty : Option ℤ) :
    ∀ (l : List Transaction) (core : FifoCore) (issues : List Issue),
    portInv core.portfolio →
    (∀ t ∈ l, Dec.ble t.data.quantity Dec.zero = false ∧ t.data.total_value_pln ≠ none) →
    ∃ r, processTxList ty core issues l = Except.ok r := by
  intro l
  induction l with
  | nil =>
    intro core issues _ _
    exact ⟨(core, issues), rfl⟩
  | cons t rest ih =>
    intro core issues hinv hl
    have hrest : ∀ t' ∈ rest, Dec.ble t'.data.quantity Dec.zero = false ∧
        t'.data.total_value_pln ≠ none := fun t' ht' => hl t' (by simp [ht'])
    rcases t with d | d | d
    · simp only [processTxList]
      apply ih _ _ _ hrest
      have hd := hl (Transaction.buy d) (by simp)
      exact portInv_add_transaction hinv ⟨ble_false_pos hd.1, hd.2⟩
    · simp only [processTxList]
      by_cases hskip : skipYear ty d.date = true
      · rw [if_pos hskip]
        exact ih core issues hinv hrest
      · rw [if_neg hskip]
        have hd := hl (Transaction.sell d) (by simp)
        cases hr : (core.portfolio.process_sale d).1 with
        | ok ms =>
          dsimp only
          apply ih _ _ _ hrest
          exact portInv_process_sale core.portfolio d hinv
        | error e =>
          dsimp only
          have he : e.isValueError = true :=
            process_sale_valueError_only core.portfolio d hinv hd.2 (ble_false_pos hd.1) e hr
          rw [if_pos he]
          apply ih _ _ _ hrest
          exact portInv_process_sale core.portfolio d hinv
    · simp only [processTxList]
      exact ih core issues hinv hrest

theorem calculate_ok (l : List Transaction) (ty : Option ℤ)
    (hv : FifoCalculator.validate l = []) :
    ∃ r, FifoCalculator.calculate l ty = Except.ok r := by
  unfold FifoCalculator.calculate
  rw [hv]
  dsimp only
  rw [if_neg (not_not_intro rfl)]
  obtain ⟨r0, hr0⟩ := processTxList_ok ty (sortTransactions l)
    ⟨⟨[]⟩, [], emptyFifoStats ty, []⟩ []
    (by intro pos hpos p hp; simp at hpos)
    (by
      intro t ht
      apply validate_spec l hv
      unfold sortTransactions at ht
      rw [List.mem_insertionSort] at ht
      exact ht)
  rw [hr0]
  exact ⟨_, rfl⟩

theorem process_sale_sellDate (port : Portfolio) (sale : TxData) (ms : List FifoMatchResult)
    (h : (port.process_sale sale).1 = Except.ok ms) :
    ∀ m ∈ ms, m.sell_date = sale.date := by
  unfold Portfolio.process_sale at h
  cases hfind : port.positions.find? (fun pos => pos.ticker == sale.ticker) with
  | none =>
    rw [hfind] at h
    simp at h
  | some position =>
    rw [hfind] at h
    dsimp only at h
    by_cases hblt : Dec.blt position.get_total_shares sale.quantity = true
    · rw [if_pos hblt] at h
      simp at h
    · rw [if_neg hblt] at h
      cases hV : sale.total_value_pln with
      | none =>
        rw [hV] at h
        simp at h
      | some sv =>
        rw [hV] at h
        dsimp only at h
        by_cases hq0 : sale.quantity.man = 0
        · rw [if_pos hq0] at h
          simp at h
        · rw [if_neg hq0] at h
          dsimp only at h
          intro m hm
          exact (processPurchases_sellDate sale (Dec.div sv sale.quantity) _ _ _ ms h m hm).1

theorem skipYear_false_year {y : ℤ} {d : Date} (h : ¬ skipYear (some y) d = true) :
    d.year = y := by
  simp [skipYear] at h
  exact h

theorem processTxList_sellYear (y : ℤ) :
    ∀ (l : List Transaction) (core : FifoCore) (issues : List Issue)
      (core' : FifoCore) (issues' : List Issue),
    processTxList (some y) core issues l = Except.ok (core', issues') →
    (∀ m ∈ core.matchList, m.sell_date.year = y) →
    ∀ m ∈ core'.matchList, m.sell_date.year = y := by
  intro l
  induction l with
  | nil =>
    intro core issues core' issues' h hc
    simp only [processTxList] at h
    simp at h
    rw [← h.1]
    exact hc
  | cons t rest ih =>
    intro core issues core' issues' h hc
    rcases t with d | d | d
    · simp only [processTxList] at h
      exact ih _ _ _ _ h hc
    · simp only [processTxList] at h
      by_cases hskip : skipYear (some y) d.date = true
      · rw [if_pos hskip] at h
        exact ih _ _ _ _ h hc
      · rw [if_neg hskip] at h
        cases hr : (core.portfolio.process_sale d).1 with
        | ok ms =>
          rw [hr] at h
          dsimp only at h
          apply ih _ _ _ _ h
          intro m hm
          dsimp only at hm
          rcases List.mem_append.mp hm with hmm | hmm
          · exact hc m hmm
          · have := process_sale_sellDate core.portfolio d ms hr m hmm
            rw [this]
            exact skipYear_false_year hskip
        | error e =>
          rw [hr] at h
          dsimp only at h
          by_cases he : e.isValueError = true
          · rw [if_pos he] at h
            exact ih _ _ _ _ h hc
          · rw [if_neg he] at h
            simp at h
    · simp only [processTxList] at h
      exact ih _ _ _ _ h hc

theorem dividendsOf_append (l1 l2 : List Transaction) :
    dividendsOf (l1 ++ l2) = dividendsOf l1 ++ dividendsOf l2 := by
  unfold dividendsOf
  rw [List.filterMap_append]

theorem dividendsOf_updated (l : List Transaction) (heap : List (ℕ × Dec)) :
    dividendsOf (updatedTransactions l heap) = dividendsOf l := by
  unfold updatedTransactions dividendsOf
  rw [List.filterMap_map]
  apply List.filterMap_congr
  intro t _
  rcases t with d | d | d
  · dsimp only [Function.comp_apply]
    cases heapQuantity heap d.oid <;> rfl
  · rfl
  · rfl

theorem finalizeLoop_mem (rate : Dec) :
    ∀ (ss : List DividendSummary) (st : DividendStats) (s : DividendSummary),
    s ∈ (finalizeLoop rate ss st).1 → ∃ s0 ∈ ss, s = finalizeSummary rate s0 := by
  intro ss
  induction ss with
  | nil =>
    intro st s hs
    simp [finalizeLoop] at hs
  | cons s0 rest ih =>
    intro st s hs
    simp only [finalizeLoop] at hs
    rcases List.mem_cons.mp hs with h | h
    · exact ⟨s0, by simp, h⟩
    · obtain ⟨s1, hs1, he⟩ := ih _ s h
      exact ⟨s1, by simp [hs1], he⟩

theorem divCalculate_summary_fields (rate : Dec) (l : List Transaction) (ty : Option ℤ)
    (s : DividendSummary) (hs : s ∈ (DividendCalculator.calculate rate l ty).summaries) :
    s.tax_due_poland = Dec.mul s.total_dividend_pln rate ∧
    s.tax_to_pay = dmax0 (Dec.sub s.tax_due_poland s.tax_paid_abroad_pln) ∧
    0 ≤ s.tax_to_pay.toRat := by
  unfold DividendCalculator.calculate at hs
  dsimp only at hs
  split_ifs at hs with h1 h2
  · simp at hs
  · simp at hs
  · dsimp only at hs
    obtain ⟨s0, _, hse⟩ := finalizeLoop_mem rate _ _ s hs
    refine ⟨?_, ?_, ?_⟩
    · rw [hse]
      rfl
    · rw [hse]
      rfl
    · rw [hse]
      unfold finalizeSummary
      dsimp only
      exact dmax0_nonneg _

theorem notMem_ite_singleton {c : Prop} [Decidable c] {a b : Issue} (hab : b ≠ a) :
    a ∉ (if c then [b] else []) := by
  split_ifs with hc
  · intro h
    simp at h
    exact hab h.symm
  · simp

theorem divTxIssues_noDividends (i : ℕ) (d : TxData) :
    Issue.noDividends ∉ divTxIssues i d := by
  unfold divTxIssues
  intro h
  rcases List.mem_append.mp h with h | h
  · rcases List.mem_append.mp h with h | h
    · rcases List.mem_append.mp h with h | h
      · rcases List.mem_append.mp h with h | h
        · exact notMem_ite_singleton (fun hcon => Issue.noConfusion hcon) h
        · exact notMem_ite_singleton (fun hcon => Issue.noConfusion hcon) h
      · exact notMem_ite_singleton (fun hcon => Issue.noConfusion hcon) h
    · exact notMem_ite_singleton (fun hcon => Issue.noConfusion hcon) h
  · exact notMem_ite_singleton (fun hcon => Issue.noConfusion hcon) h

theorem divValidateLoop_noDividends : ∀ (ds : List TxData) (i : ℕ),
    Issue.noDividends ∉ divValidateLoop i ds := by
  intro ds
  induction ds with
  | nil =>
    intro i h
    simp [divValidateLoop] at h
  | cons d rest ih =>
    intro i h
    simp only [divValidateLoop] at h
    rcases List.mem_append.mp h with h | h
    · exact divTxIssues_noDividends i d h
    · exact ih (i + 1) h

theorem divTxIssues_ne_nil_of_noCountry (i : ℕ) (d : TxData)
    (hc : d.country = none ∨ d.country = some ("")) : divTxIssues i d ≠ [] := by
  unfold divTxIssues
  intro h
  obtain ⟨_, hE⟩ := List.append_eq_nil.mp h
  rw [if_pos hc] at hE
  simp at hE

theorem divValidateLoop_ne_nil : ∀ (ds : List TxData) (i : ℕ) (d : TxData), d ∈ ds →
    (d.country = none ∨ d.country = some ("")) → divValidateLoop i ds ≠ [] := by
  intro ds
  induction ds with
  | nil =>
    intro i d hd
    simp at hd
  | cons d0 rest ih =>
    intro i d hd hc h
    simp only [divValidateLoop] at h
    obtain ⟨h1, h2⟩ := List.append_eq_nil.mp h
    rcases List.mem_cons.mp hd with he | he
    · exact divTxIssues_ne_nil_of_noCountry i d0 (he ▸ hc) h1
    · exact ih (i + 1) d he hc h2

theorem dividendsOf_map_dividend : ∀ (ds : List TxData),
    dividendsOf (ds.map Transaction.dividend) = ds := by
  intro ds
  induction ds with
  | nil => rfl
  | cons d rest ih =>
    simp only [List.map_cons, dividendsOf, List.filterMap_cons]
    unfold dividendsOf at ih
    rw [ih]

theorem divCalculate_updated (rate : Dec) (l : List Transaction) (heap : List (ℕ × Dec))
    (ty : Option ℤ) :
    DividendCalculator.calculate rate (updatedTransactions l heap) ty =
    DividendCalculator.calculate rate l ty := by
  unfold DividendCalculator.calculate
  rw [dividendsOf_updated]

theorem divValidate_of_bad (dt : List TxData) (d : TxData) (hd : d ∈ dt)
    (hc : d.country = none ∨ d.country = some ("")) :
    DividendCalculator.validate (dt.map Transaction.dividend) ≠ [] ∧
    Issue.noDividends ∉ DividendCalculator.validate (dt.map Transaction.dividend) := by
  have hdtne : dt ≠ [] := by
    rintro rfl
    simp at hd
  have hne : dt.map Transaction.dividend ≠ [] := by
    rcases dt with _ | ⟨a, as⟩
    · exact absurd rfl hdtne
    · simp
  unfold DividendCalculator.validate
  rw [if_neg hne]
  dsimp only
  rw [dividendsOf_map_dividend]
  rw [if_neg hdtne]
  exact ⟨divValidateLoop_ne_nil dt 0 d hd hc, divValidateLoop_noDividends dt 0⟩

theorem divCalculate_erase_other_year (rate : Dec) (l1 l2 : List Transaction) (d : TxData)
    (y : ℤ) (h : d.date.year ≠ y) :
    DividendCalculator.calculate rate (l1 ++ Transaction.dividend d :: l2) (some y) =
    DividendCalculator.calculate rate (l1 ++ l2) (some y) := by
  have hfilter : (dividendsOf (l1 ++ Transaction.dividend d :: l2)).filter
      (fun d0 => d0.date.year == y) =
      (dividendsOf (l1 ++ l2)).filter (fun d0 => d0.date.year == y) := by
    rw [dividendsOf_append, dividendsOf_append]
    rw [List.filter_append, List.filter_append]
    congr 1
    show ((d :: dividendsOf l2).filter (fun d0 => d0.date.year == y)) = _
    rw [List.filter_cons]
    rw [if_neg (by simp [h])]
  unfold DividendCalculator.calculate
  dsimp only
  rw [hfilter]

/-! ### Claim theorems -/

/-- Claim C1 (amended).  For a sale whose position exists, whose PLN value is
present, whose lot and sale quantities are positive decimals at grain
`≥ 10 ^ (-8)`, and whose position's exact total quantity is at least the sale
quantity and at most `10 ^ 18`, `Portfolio.process_sale` succeeds and the
`used_quantity` fields of its `FifoMatchResult`s sum exactly to
`sale.quantity`.  (Without the grain/magnitude bounds the property is false:
the running `remaining_shares` subtraction is context-rounded, see the
counterexample.) -/
theorem fifo_used_quantity_conservation (port : Portfolio) (sale : TxData)
    (position : PortfolioPosition) (sv : Dec)
    (hfind : port.positions.find? (fun pos => pos.ticker == sale.ticker) = some position)
    (hlots : ∀ p ∈ position.purchases,
      -8 ≤ p.quantity.exp ∧ 0 < p.quantity.toRat ∧ p.total_value_pln ≠ none)
    (hq8 : -8 ≤ sale.quantity.exp) (hqpos : 0 < sale.quantity.toRat)
    (hV : sale.total_value_pln = some sv)
    (hsuff : sale.quantity.toRat ≤ (position.purchases.map (fun p => p.quantity.toRat)).sum)
    (hbound : (position.purchases.map (fun p => p.quantity.toRat)).sum ≤ 10 ^ 18) :
    ∃ ms, (port.process_sale sale).1 = Except.ok ms ∧
      (ms.map (fun m => m.used_quantity.toRat)).sum = sale.quantity.toRat := by
  obtain ⟨ms, h1, h2, _⟩ :=
    process_sale_master port sale position sv hfind hlots hq8 hqpos hV hsuff hbound
  exact ⟨ms, h1, h2⟩

def C1wlot : TxData :=
  ⟨1, ⟨2021,1,1⟩, "W1", ⟨2,0⟩, "PLN", none, some ⟨1,2⟩, none, none, none⟩

def C1wsale : TxData :=
  ⟨2, ⟨2021,2,1⟩, "W1", ⟨1,0⟩, "PLN", none, some ⟨5,1⟩, none, none, none⟩

/-- Witness for C1: a concrete in-bounds sale. -/
theorem fifo_used_quantity_conservation_witness :
    ∃ ms, ((⟨[⟨"W1", [C1wlot]⟩]⟩ : Portfolio).process_sale C1wsale).1 = Except.ok ms ∧
      (ms.map (fun m => m.used_quantity.toRat)).sum = C1wsale.quantity.toRat :=
  fifo_used_quantity_conservation ⟨[⟨"W1", [C1wlot]⟩]⟩ C1wsale ⟨"W1", [C1wlot]⟩ ⟨5,1⟩
    (by decide)
    (by
      intro p hp
      simp only [List.mem_singleton] at hp
      rw [hp]
      exact ⟨by decide, by norm_num [Dec.toRat, C1wlot], by decide⟩)
    (by decide) (by norm_num [Dec.toRat, C1wsale]) (by decide)
    (by norm_num [Dec.toRat, C1wsale, C1wlot])
    (by norm_num [Dec.toRat, C1wlot])

def C1cexLot1 : TxData :=
  ⟨1, ⟨2020,1,1⟩, "B", ⟨2,0⟩, "PLN", none, some ⟨1,0⟩, none, none, none⟩

def C1cexLot2 : TxData :=
  ⟨2, ⟨2020,2,1⟩, "B", ⟨1,29⟩, "PLN", none, some ⟨1,0⟩, none, none, none⟩

def C1cexSale : TxData :=
  ⟨3, ⟨2021,6,1⟩, "B", ⟨1,29⟩, "PLN", none, some ⟨1,0⟩, none, none, none⟩

/-- Counterexample to C1 as stated: lots of 2 and 1E+29 shares and a sale of
1E+29 shares.  The position exists, the PLN value is present, the exact total
(2 + 1E+29) is at least the sale quantity, yet the sale consumes 2 + 1E+29
shares: after consuming the 2-share lot the 29-digit `remaining_shares` is
rounded back up to 1E+29 by the 28-digit decimal context. -/
theorem fifo_used_quantity_conservation_cex :
    ((⟨[⟨"B", [C1cexLot1, C1cexLot2]⟩]⟩ : Portfolio).positions.find?
      (fun pos => pos.ticker == C1cexSale.ticker) = some ⟨"B", [C1cexLot1, C1cexLot2]⟩) ∧
    C1cexSale.total_value_pln = some ⟨1,0⟩ ∧
    (0 : ℚ) < C1cexSale.quantity.toRat ∧
    C1cexSale.quantity.toRat ≤ ([C1cexLot1, C1cexLot2].map (fun p => p.quantity.toRat)).sum ∧
    ((⟨[⟨"B", [C1cexLot1, C1cexLot2]⟩]⟩ : Portfolio).process_sale C1cexSale).1.map
      (fun ms => ms.map (fun m => m.used_quantity)) = Except.ok [⟨2,0⟩, ⟨1,29⟩] ∧
    ((⟨2,0⟩ : Dec).toRat + ((⟨1,29⟩ : Dec).toRat + 0)) ≠ C1cexSale.quantity.toRat := by
  refine ⟨by decide, by decide, ?_, ?_, by decide, ?_⟩
  · norm_num [Dec.toRat, C1cexSale]
  · norm_num [Dec.toRat, C1cexSale, C1cexLot1, C1cexLot2]
  · norm_num [Dec.toRat, C1cexSale]

/-- Claim C2 (amended).  Under the C1 hypotheses strengthened with: the exact
per-share value `sv / quantity` is representable at `10 ^ (-8)` grain with a
coefficient below `10 ^ 14`, and the position total is at most `10 ^ 6` — the
`income_pln` fields of the emitted matches sum exactly to
`sale.total_value_pln`.  (Without representability the per-share quotient is
rounded to 28 significant digits and the property is false, see the
counterexample.) -/
theorem fifo_income_conservation (port : Portfolio) (sale : TxData)
    (position : PortfolioPosition) (sv : Dec) (mw : ℤ)
    (hfind : port.positions.find? (fun pos => pos.ticker == sale.ticker) = some position)
    (hlots : ∀ p ∈ position.purchases,
      -8 ≤ p.quantity.exp ∧ 0 < p.quantity.toRat ∧ p.total_value_pln ≠ none)
    (hq8 : -8 ≤ sale.quantity.exp) (hqpos : 0 < sale.quantity.toRat)
    (hV : sale.total_value_pln = some sv)
    (hsuff : sale.quantity.toRat ≤ (position.purchases.map (fun p => p.quantity.toRat)).sum)
    (hbound6 : (position.purchases.map (fun p => p.quantity.toRat)).sum ≤ 10 ^ 6)
    (hmw : sv.toRat / sale.quantity.toRat = (mw : ℚ) / 10 ^ 8)
    (hbw : mw.natAbs < 10 ^ 14) :
    ∃ ms, (port.process_sale sale).1 = Except.ok ms ∧
      (ms.map (fun m => m.income_pln.toRat)).sum = sv.toRat := by
  have hq0man : sale.quantity.man ≠ 0 := man_ne_zero_of_pos hqpos
  have hqne : sale.quantity.toRat ≠ 0 := ne_of_gt hqpos
  have hbound : (position.purchases.map (fun p => p.quantity.toRat)).sum ≤ 10 ^ 18 := by
    calc (position.purchases.map (fun p => p.quantity.toRat)).sum
        ≤ 10 ^ 6 := hbound6
      _ ≤ 10 ^ 18 := by norm_num
  obtain ⟨ms, h1, hsum, hshape⟩ :=
    process_sale_master port sale position sv hfind hlots hq8 hqpos hV hsuff hbound
  have hmwabs : |(mw : ℚ)| < 10 ^ 14 := by
    have h1 : ((mw.natAbs : ℕ) : ℚ) < 10 ^ 14 := by exact_mod_cast hbw
    rw [Int.cast_natAbs, Int.cast_abs] at h1
    exact h1
  have hps : (Dec.div sv sale.quantity).toRat = sv.toRat / sale.quantity.toRat ∧
      -8 ≤ (Dec.div sv sale.quantity).exp := by
    by_cases hsv0 : sv.man = 0
    · have hz : Dec.div sv sale.quantity = ⟨0, 0⟩ := by
        unfold Dec.div
        rw [if_neg hq0man, if_pos hsv0]
      have hsvz : sv.toRat = 0 := (toRat_zero_iff sv).mpr hsv0
      constructor
      · rw [hz, hsvz, zero_div]
        simp [Dec.toRat]
      · rw [hz]
        norm_num
    · have hmw0 : mw ≠ 0 := by
        intro h0
        rw [h0] at hmw
        simp at hmw
        rcases hmw with h | h
        · exact hsv0 ((toRat_zero_iff sv).mp h)
        · exact hqne h
      exact ⟨toRat_ddiv_exact hq0man hmw hbw,
        ddiv_exp_ge8 hq0man hsv0 hmw hbw hmw0⟩
  have habs_ps : |(Dec.div sv sale.quantity).toRat| < 10 ^ 6 := by
    rw [hps.1, hmw, abs_div, abs_of_pos (show (0:ℚ) < 10 ^ 8 by positivity)]
    rw [div_lt_iff₀ (show (0:ℚ) < 10 ^ 8 by positivity)]
    calc |(mw : ℚ)| < 10 ^ 14 := hmwabs
      _ = 10 ^ 6 * 10 ^ 8 := by norm_num
  have hlots6 : ∀ p ∈ position.purchases,
      0 ≤ p.quantity.toRat ∧ p.quantity.toRat ≤ 10 ^ 6 := by
    intro p hp
    refine ⟨le_of_lt (hlots p hp).2.1, ?_⟩
    calc p.quantity.toRat
        ≤ (position.purchases.map (fun p => p.quantity.toRat)).sum := by
          apply List.single_le_sum
          · intro x hx
            simp only [List.mem_map] at hx
            obtain ⟨q, hq, hxq⟩ := hx
            rw [← hxq]
            exact le_of_lt (hlots q hq).2.1
          · exact List.mem_map_of_mem _ hp
      _ ≤ 10 ^ 6 := hbound6
  have key : ∀ (ms' : List FifoMatchResult) (lots : List TxData),
      matchesShape sale (Dec.div sv sale.quantity) ms' lots →
      (∀ p ∈ lots, 0 ≤ p.quantity.toRat ∧ p.quantity.toRat ≤ 10 ^ 6) →
      (ms'.map (fun m => m.income_pln.toRat)).sum =
        (ms'.map (fun m => m.used_quantity.toRat)).sum * (Dec.div sv sale.quantity).toRat := by
    intro ms'
    induction ms' with
    | nil =>
      intro lots _ _
      simp
    | cons m0 ms0 ih =>
      intro lots hsh hl6
      rcases lots with _ | ⟨p, ps⟩
      · simp [matchesShape] at hsh
      · simp only [matchesShape] at hsh
        obtain ⟨_, _, _, _, hinc, hexp, hpos, hle, _, hrec⟩ := hsh
        have hub : m0.used_quantity.toRat ≤ 10 ^ 6 :=
          le_trans hle (hl6 p (by simp)).2
        have hbound12 : |m0.used_quantity.toRat| * |(Dec.div sv sale.quantity).toRat| < 10 ^ 12 := by
          rw [abs_of_pos hpos]
          calc m0.used_quantity.toRat * |(Dec.div sv sale.quantity).toRat|
              ≤ 10 ^ 6 * |(Dec.div sv sale.quantity).toRat| :=
                mul_le_mul_of_nonneg_right hub (abs_nonneg _)
            _ < 10 ^ 6 * 10 ^ 6 := by
                apply mul_lt_mul_of_pos_left habs_ps
                norm_num
            _ = 10 ^ 12 := by norm_num
        simp only [List.map_cons, List.sum_cons]
        rw [hinc, toRat_dmul_exact hexp hps.2 hbound12,
          ih ps hrec (fun q hq => hl6 q (by simp [hq]))]
        ring
  refine ⟨ms, h1, ?_⟩
  rw [key ms position.purchases hshape hlots6, hsum, hps.1, mul_comm,
    div_mul_cancel₀ _ hqne]

def C2wlot : TxData :=
  ⟨1, ⟨2021,1,1⟩, "W2", ⟨2,0⟩, "PLN", none, some ⟨2,2⟩, none, none, none⟩

def C2wsale : TxData :=
  ⟨2, ⟨2021,2,1⟩, "W2", ⟨2,0⟩, "PLN", none, some ⟨1,2⟩, none, none, none⟩

/-- Witness for C2: value 100 over 2 shares, per-share 50 is exactly
representable. -/
theorem fifo_income_conservation_witness :
    ∃ ms, ((⟨[⟨"W2", [C2wlot]⟩]⟩ : Portfolio).process_sale C2wsale).1 = Except.ok ms ∧
      (ms.map (fun m => m.income_pln.toRat)).sum = (⟨1,2⟩ : Dec).toRat :=
  fifo_income_conservation ⟨[⟨"W2", [C2wlot]⟩]⟩ C2wsale ⟨"W2", [C2wlot]⟩ ⟨1,2⟩ 5000000000
    (by decide)
    (by
      intro p hp
      simp only [List.mem_singleton] at hp
      rw [hp]
      exact ⟨by decide, by norm_num [Dec.toRat, C2wlot], by decide⟩)
    (by decide) (by norm_num [Dec.toRat, C2wsale]) (by decide)
    (by norm_num [Dec.toRat, C2wsale, C2wlot])
    (by norm_num [Dec.toRat, C2wlot])
    (by norm_num [Dec.toRat, C2wsale])
    (by decide)

def C2cexLot : TxData :=
  ⟨1, ⟨2021,1,1⟩, "ABC", ⟨3,0⟩, "PLN", none, some ⟨3,2⟩, none, none, none⟩

def C2cexSale : TxData :=
  ⟨2, ⟨2021,6,1⟩, "ABC", ⟨3,0⟩, "PLN", none, some ⟨1,2⟩, none, some ("USA"), none⟩

/-- Counterexample to C2 as stated: selling 3 shares for a total of 100 PLN.
The per-share price 100/3 is rounded to 28 significant digits, so the single
match's income is 99.99999999999999999999999999 PLN, not 100 PLN. -/
theorem fifo_income_conservation_cex :
    ((⟨[⟨"ABC", [C2cexLot]⟩]⟩ : Portfolio).positions.find?
      (fun pos => pos.ticker == C2cexSale.ticker) = some ⟨"ABC", [C2cexLot]⟩) ∧
    C2cexSale.total_value_pln = some ⟨1,2⟩ ∧
    (0 : ℚ) < C2cexSale.quantity.toRat ∧
    C2cexSale.quantity.toRat ≤ ([C2cexLot].map (fun p => p.quantity.toRat)).sum ∧
    ((⟨[⟨"ABC", [C2cexLot]⟩]⟩ : Portfolio).process_sale C2cexSale).1.map
      (fun ms => ms.map (fun m => m.income_pln)) =
      Except.ok [⟨9999999999999999999999999999, -26⟩] ∧
    ((⟨9999999999999999999999999999, -26⟩ : Dec).toRat + 0) ≠ (⟨1,2⟩ : Dec).toRat := by
  refine ⟨by decide, by decide, ?_, ?_, by decide, ?_⟩
  · norm_num [Dec.toRat, C2cexSale]
  · norm_num [Dec.toRat, C2cexSale, C2cexLot]
  · norm_num [Dec.toRat]

/-- Claim C3.  FIFO consumption order: (i) a position's lot list is kept
sorted by purchase date by `add_purchase`; (ii) that sort is stable — two
lots standing in date order (in particular, equal-date lots in insertion
order) keep their relative order when another lot is added; (iii) every
successful sale, with no numeric side conditions at all, consumes the
position's lot list strictly oldest-first: its matches pair up with a
prefix of the lot list in order, every match but the last fully consumes
its lot, no match exceeds its lot (`consumedShape`), and whenever the lot
list is date-sorted — which (i) guarantees for positions maintained by
`add_purchase` — the matches are ordered by ascending `buy_date`. -/
theorem fifo_ordering :
    (∀ (p : PortfolioPosition) (t : TxData),
      List.Pairwise txLe (p.add_purchase t).purchases) ∧
    (∀ (p : PortfolioPosition) (t a b : TxData),
      List.Sublist [a, b] p.purchases → txLe a b →
      List.Sublist [a, b] (p.add_purchase t).purchases) ∧
    (∀ (port : Portfolio) (sale : TxData) (ms : List FifoMatchResult),
      (port.process_sale sale).1 = Except.ok ms →
      ∃ position,
        port.positions.find? (fun pos => pos.ticker == sale.ticker) = some position ∧
        consumedShape sale ms position.purchases ∧
        (List.Pairwise txLe position.purchases →
          List.Pairwise (fun m1 m2 => dateLe m1.buy_date m2.buy_date) ms)) := by
  refine ⟨?_, ?_, ?_⟩
  · intro p t
    exact List.sorted_insertionSort txLe _
  · intro p t a b hsub hab
    exact List.pair_sublist_insertionSort hab (hsub.trans (List.sublist_append_left _ _))
  · intro port sale ms h
    obtain ⟨position, hfind, hshape⟩ := process_sale_shape port sale ms h
    exact ⟨position, hfind, hshape,
      fun hsorted => consumedShape_pairwise sale ms position.purchases hshape hsorted⟩

def C3P1 : TxData :=
  ⟨1, ⟨2021,1,1⟩, "AAA", ⟨1,1⟩, "PLN", none, some ⟨1,3⟩, none, none, none⟩

def C3P2 : TxData :=
  ⟨2, ⟨2021,6,1⟩, "AAA", ⟨1,1⟩, "PLN", none, some ⟨12,2⟩, none, none, none⟩

def C3sale : TxData :=
  ⟨3, ⟨2021,9,1⟩, "AAA", ⟨15,0⟩, "PLN", none, some ⟨15,2⟩, none, none, none⟩

def C3port : Portfolio := ⟨[⟨"AAA", [C3P1, C3P2]⟩]⟩

def C3m1 : FifoMatchResult :=
  ⟨3, 1, ⟨1,1⟩, ⟨1,3⟩, ⟨1,3⟩, ⟨0,0⟩, ⟨2021,9,1⟩, ⟨2021,1,1⟩, "Unknown", "AAA"⟩

def C3m2 : FifoMatchResult :=
  ⟨3, 2, ⟨5,0⟩, ⟨5,2⟩, ⟨6,2⟩, ⟨-1,2⟩, ⟨2021,9,1⟩, ⟨2021,6,1⟩, "Unknown", "AAA"⟩

/-- Witness for C3, including the specification's concrete example: P1
(qty 10, 2021-01-01) and P2 (qty 10, 2021-06-01), selling 15 shares gives
exactly two matches — 10 shares of P1 then 5 shares of P2, ordered by
ascending purchase date. -/
theorem fifo_ordering_witness :
    (∃ position,
      C3port.positions.find? (fun pos => pos.ticker == C3sale.ticker) = some position ∧
      consumedShape C3sale [C3m1, C3m2] position.purchases ∧
      (List.Pairwise txLe position.purchases →
        List.Pairwise (fun m1 m2 => dateLe m1.buy_date m2.buy_date) [C3m1, C3m2])) ∧
    (C3port.process_sale C3sale).1.map
      (fun ms => ms.map (fun m => (m.buyId, m.used_quantity))) =
      Except.ok [(1, ⟨1,1⟩), (2, ⟨5,0⟩)] :=
  ⟨fifo_ordering.2.2 C3port C3sale [C3m1, C3m2] (by decide), by decide⟩

/-- Claim C4 (amended).  With the sale's PLN value present, its quantity a
positive decimal at grain `≥ -8`, and every lot of the relevant position
well-formed (positive grain-`≥ -8` quantity, present PLN value, total at most
`10 ^ 18`): `process_sale` raises not-in-portfolio exactly when the ticker
has no position, raises insufficient-shares exactly when the exact open total
is strictly below the sale quantity, and otherwise returns normally with at
least one match.  (Without the added hypotheses the property is false — a
missing `total_value_pln` raises a `TypeError` even though shares are
sufficient, see the counterexample.) -/
theorem process_sale_error_iff (port : Portfolio) (sale : TxData) (sv : Dec)
    (hV : sale.total_value_pln = some sv)
    (hq8 : -8 ≤ sale.quantity.exp) (hqpos : 0 < sale.quantity.toRat)
    (hlots : ∀ position,
      port.positions.find? (fun pos => pos.ticker == sale.ticker) = some position →
      (∀ p ∈ position.purchases,
        -8 ≤ p.quantity.exp ∧ 0 < p.quantity.toRat ∧ p.total_value_pln ≠ none) ∧
      (position.purchases.map (fun p => p.quantity.toRat)).sum ≤ 10 ^ 18) :
    ((port.process_sale sale).1 = Except.error (SaleError.notInPortfolio sale.ticker) ↔
      port.positions.find? (fun pos => pos.ticker == sale.ticker) = none) ∧
    (∀ position,
      port.positions.find? (fun pos => pos.ticker == sale.ticker) = some position →
      (((port.process_sale sale).1 = Except.error (SaleError.insufficientShares sale.ticker)) ↔
        (position.purchases.map (fun p => p.quantity.toRat)).sum < sale.quantity.toRat) ∧
      (sale.quantity.toRat ≤ (position.purchases.map (fun p => p.quantity.toRat)).sum →
        ∃ ms, (port.process_sale sale).1 = Except.ok ms ∧ ms ≠ [])) := by
  constructor
  · cases hfind : port.positions.find? (fun pos => pos.ticker == sale.ticker) with
    | none =>
      constructor
      · intro _
        rfl
      · intro _
        unfold Portfolio.process_sale
        rw [hfind]
    | some position =>
      obtain ⟨hlp, hbound⟩ := hlots position hfind
      constructor
      · intro habs
        exfalso
        unfold Portfolio.process_sale at habs
        rw [hfind] at habs
        dsimp only at habs
        by_cases hblt : Dec.blt position.get_total_shares sale.quantity = true
        · rw [if_pos hblt] at habs
          simp at habs
        · rw [if_neg hblt, hV] at habs
          dsimp only at habs
          rw [if_neg (man_ne_zero_of_pos hqpos)] at habs
          dsimp only at habs
          obtain ⟨ms, ps, hp, heq, _⟩ := processPurchases_ok sale (Dec.div sv sale.quantity)
            (position.purchases.length + 2) sale.quantity position.purchases
            (fun p hpp => ⟨(hlp p hpp).2.1, (hlp p hpp).2.2⟩)
          rw [heq] at habs
          simp at habs
      · intro habs
        simp at habs
  · intro position hfind
    obtain ⟨hlp, hbound⟩ := hlots position hfind
    have htot : position.get_total_shares.toRat =
        (position.purchases.map (fun p => p.quantity.toRat)).sum :=
      get_total_shares_exact position (fun p hp => ⟨(hlp p hp).1, (hlp p hp).2.1⟩) hbound
    constructor
    · constructor
      · intro herr
        by_contra hcon
        push_neg at hcon
        have hblt : ¬ Dec.blt position.get_total_shares sale.quantity = true := by
          rw [dblt_iff, htot]
          exact not_lt.mpr hcon
        unfold Portfolio.process_sale at herr
        rw [hfind] at herr
        dsimp only at herr
        rw [if_neg hblt, hV] at herr
        dsimp only at herr
        rw [if_neg (man_ne_zero_of_pos hqpos)] at herr
        dsimp only at herr
        obtain ⟨ms, ps, hp, heq, _⟩ := processPurchases_ok sale (Dec.div sv sale.quantity)
          (position.purchases.length + 2) sale.quantity position.purchases
          (fun p hpp => ⟨(hlp p hpp).2.1, (hlp p hpp).2.2⟩)
        rw [heq] at herr
        simp at herr
      · intro hlt
        have hblt : Dec.blt position.get_total_shares sale.quantity = true := by
          rw [dblt_iff, htot]
          exact hlt
        unfold Portfolio.process_sale
        rw [hfind]
        dsimp only
        rw [if_pos hblt]
    · intro hsuff
      obtain ⟨ms, h1, h2, _⟩ :=
        process_sale_master port sale position sv hfind hlp hq8 hqpos hV hsuff hbound
      refine ⟨ms, h1, ?_⟩
      intro h0
      rw [h0] at h2
      simp at h2
      first
      | exact ne_of_gt hqpos h2
      | exact ne_of_gt hqpos h2.symm

def C4wlot : TxData :=
  ⟨1, ⟨2021,1,1⟩, "W4", ⟨2,0⟩, "PLN", none, some ⟨1,2⟩, none, none, none⟩

def C4wsale : TxData :=
  ⟨2, ⟨2021,2,1⟩, "W4", ⟨1,0⟩, "PLN", none, some ⟨5,1⟩, none, none, none⟩

def C4wport : Portfolio := ⟨[⟨"W4", [C4wlot]⟩]⟩

/-- Witness for C4: a well-formed portfolio and sale. -/
theorem process_sale_error_iff_witness :
    ((C4wport.process_sale C4wsale).1 =
        Except.error (SaleError.notInPortfolio C4wsale.ticker) ↔
      C4wport.positions.find? (fun pos => pos.ticker == C4wsale.ticker) = none) ∧
    (∀ position,
      C4wport.positions.find? (fun pos => pos.ticker == C4wsale.ticker) = some position →
      (((C4wport.process_sale C4wsale).1 =
          Except.error (SaleError.insufficientShares C4wsale.ticker)) ↔
        (position.purchases.map (fun p => p.quantity.toRat)).sum < C4wsale.quantity.toRat) ∧
      (C4wsale.quantity.toRat ≤ (position.purchases.map (fun p => p.quantity.toRat)).sum →
        ∃ ms, (C4wport.process_sale C4wsale).1 = Except.ok ms ∧ ms ≠ [])) :=
  process_sale_error_iff C4wport C4wsale ⟨5,1⟩ (by decide) (by decide)
    (by norm_num [Dec.toRat, C4wsale])
    (by
      intro position hp
      rw [show C4wport.positions.find? (fun pos => pos.ticker == C4wsale.ticker) =
        some (⟨"W4", [C4wlot]⟩ : PortfolioPosition) from by decide] at hp
      injection hp with hpe
      rw [← hpe]
      constructor
      · intro p hpp
        simp only [List.mem_singleton] at hpp
        rw [hpp]
        exact ⟨by decide, by norm_num [Dec.toRat, C4wlot], by decide⟩
      · norm_num [Dec.toRat, C4wlot])

def C4cexLot : TxData :=
  ⟨1, ⟨2021,1,1⟩, "D", ⟨1,0⟩, "PLN", none, some ⟨1,2⟩, none, none, none⟩

def C4cexSale : TxData :=
  ⟨2, ⟨2021,2,1⟩, "D", ⟨1,0⟩, "PLN", none, none, none, none, none⟩

/-- Counterexample to C4 as stated: a sale with no `total_value_pln` against
a sufficient position.  Neither of the claim's two error conditions holds,
yet the call does not return normally — `None / Decimal` raises a
`TypeError` (not the insufficient-shares `ValueError`). -/
theorem process_sale_error_iff_cex :
    ((⟨[⟨"D", [C4cexLot]⟩]⟩ : Portfolio).positions.find?
      (fun pos => pos.ticker == C4cexSale.ticker) = some ⟨"D", [C4cexLot]⟩) ∧
    C4cexSale.quantity.toRat ≤ ([C4cexLot].map (fun p => p.quantity.toRat)).sum ∧
    ((⟨[⟨"D", [C4cexLot]⟩]⟩ : Portfolio).process_sale C4cexSale).1 =
      Except.error SaleError.numericError := by
  refine ⟨by decide, ?_, by decide⟩
  norm_num [Dec.toRat, C4cexSale, C4cexLot]

/-- Claim C5.  For any transaction list that passes validation,
`FifoCalculator.calculate` returns a result instead of raising; and a sale
whose `process_sale` raises a `ValueError` (overselling, or an unknown
ticker) is converted into exactly one issue while the loop continues from an
unchanged state — the remaining sales produce the same matches as if the
failing sale were absent. -/
theorem fifo_degrades_oversell :
    (∀ (l : List Transaction) (ty : Option ℤ), FifoCalculator.validate l = [] →
      ∃ r, FifoCalculator.calculate l ty = Except.ok r) ∧
    (∀ (ty : Option ℤ) (core : FifoCore) (issues : List Issue) (d : TxData)
      (rest : List Transaction) (e : SaleError),
      skipYear ty d.date = false →
      (core.portfolio.process_sale d).1 = Except.error e → e.isValueError = true →
      processTxList ty core issues (Transaction.sell d :: rest) =
        processTxList ty core (issues ++ [Issue.saleIssue d.ticker e]) rest) := by
  constructor
  · exact calculate_ok
  · intro ty core issues d rest e hskip herr hve
    have hframe := process_sale_valueError core.portfolio d e herr hve
    simp only [processTxList]
    rw [if_neg (by rw [hskip]; simp)]
    rw [hframe]
    dsimp only
    rw [if_pos hve]
    rfl

def C5buy : Transaction :=
  Transaction.buy ⟨1, ⟨2021,1,1⟩, "F", ⟨2,1⟩, "PLN", none, some ⟨1,2⟩, none, none, none⟩

def C5sell1 : Transaction :=
  Transaction.sell ⟨2, ⟨2021,2,1⟩, "F", ⟨21,0⟩, "PLN", none, some ⟨1,2⟩, none, none, none⟩

def C5sell2 : Transaction :=
  Transaction.sell ⟨3, ⟨2021,3,1⟩, "F", ⟨5,0⟩, "PLN", none, some ⟨5,1⟩, none, none, none⟩

/-- Witness for C5: selling 21 of 20 held shares is degraded to one issue
and the later sale of 5 shares still matches. -/
theorem fifo_degrades_oversell_witness :
    (∃ r, FifoCalculator.calculate [C5buy, C5sell1, C5sell2] none = Except.ok r) ∧
    (FifoCalculator.calculate [C5buy, C5sell1, C5sell2] none).map
      (fun r => (r.1.issues, r.1.matchList.map (fun m => m.used_quantity))) =
      Except.ok ([Issue.saleIssue ("F") (SaleError.insufficientShares ("F"))], [⟨5,0⟩]) :=
  ⟨fifo_degrades_oversell.1 [C5buy, C5sell1, C5sell2] none (by decide), by decide⟩

/-- Claim C6.  Year filtering: (i) with a tax year set, every match of a
successful run comes from a sale dated in that year; (ii) a sell outside the
tax year is skipped — the loop state (ledger, matches, stats, issues) is
exactly as if the sale were not processed; (iii) a buy is always added to the
ledger, with no year test; (iv) a dividend dated outside the tax year can be
removed from the input without changing the dividend result at all. -/
theorem year_filter :
    (∀ (l : List Transaction) (y : ℤ) (r : FifoCalculationResult × List (ℕ × Dec)),
      FifoCalculator.calculate l (some y) = Except.ok r →
      ∀ m ∈ r.1.matchList, m.sell_date.year = y) ∧
    (∀ (ty : Option ℤ) (core : FifoCore) (issues : List Issue) (d : TxData)
      (rest : List Transaction), skipYear ty d.date = true →
      processTxList ty core issues (Transaction.sell d :: rest) =
        processTxList ty core issues rest) ∧
    (∀ (ty : Option ℤ) (core : FifoCore) (issues : List Issue) (d : TxData)
      (rest : List Transaction),
      processTxList ty core issues (Transaction.buy d :: rest) =
        processTxList ty
          { core with portfolio := core.portfolio.add_transaction d,
                      stats := { core.stats with buy_count := core.stats.buy_count + 1 } }
          issues rest) ∧
    (∀ (rate : Dec) (l1 l2 : List Transaction) (d : TxData) (y : ℤ), d.date.year ≠ y →
      DividendCalculator.calculate rate (l1 ++ Transaction.dividend d :: l2) (some y) =
        DividendCalculator.calculate rate (l1 ++ l2) (some y)) := by
  refine ⟨?_, ?_, ?_, ?_⟩
  · intro l y r h
    unfold FifoCalculator.calculate at h
    dsimp only at h
    split_ifs at h with hval
    · simp at h
      rw [← h]
      intro m hm
      simp at hm
    · cases hp : processTxList (some y) ⟨⟨[]⟩, [], emptyFifoStats (some y), []⟩ []
        (sortTransactions l) with
      | error e =>
        rw [hp] at h
        simp at h
      | ok cr =>
        rw [hp] at h
        dsimp only at h
        simp at h
        rw [← h]
        dsimp only
        exact processTxList_sellYear y _ _ _ cr.1 cr.2 (by rw [hp])
          (by intro m hm; simp at hm)
  · intro ty core issues d rest h
    simp only [processTxList]
    rw [if_pos h]
  · intro ty core issues d rest
    simp only [processTxList]
  · intro rate l1 l2 d y h
    exact divCalculate_erase_other_year rate l1 l2 d y h

def C6buy : Transaction :=
  Transaction.buy ⟨1, ⟨2021,3,1⟩, "Y", ⟨1,0⟩, "PLN", none, some ⟨1,2⟩, none, none, none⟩

def C6sell : Transaction :=
  Transaction.sell ⟨2, ⟨2022,3,1⟩, "Y", ⟨1,0⟩, "PLN", none, some ⟨2,2⟩, none, none, none⟩

def C6r : FifoCalculationResult × List (ℕ × Dec) :=
  ({ matchList := [],
     portfolio := ⟨[⟨"Y", [⟨1, ⟨2021,3,1⟩, "Y", ⟨1,0⟩, "PLN", none, some ⟨1,2⟩, none, none, none⟩]⟩]⟩,
     stats := some ⟨1, 0, 0, some 2021⟩, issues := [] }, [])

def C6div1 : Transaction :=
  Transaction.dividend ⟨3, ⟨2021,5,1⟩, "Z", ⟨1,0⟩, "PLN", none, some ⟨1,2⟩, none, some ("USA"), none⟩

def C6div2 : TxData :=
  ⟨4, ⟨2020,5,1⟩, "Z", ⟨1,0⟩, "PLN", none, some ⟨1,2⟩, none, some ("USA"), none⟩

/-- Witness for C6: a 2022 sale under tax year 2021 produces no matches while
its buy is still added to the ledger, and a 2020 dividend is excluded from a
2021 dividend run. -/
theorem year_filter_witness :
    (∀ m ∈ C6r.1.matchList, m.sell_date.year = 2021) ∧
    FifoCalculator.calculate [C6buy, C6sell] (some 2021) = Except.ok C6r ∧
    DividendCalculator.calculate ⟨19,-2⟩
        ([C6div1] ++ Transaction.dividend C6div2 :: []) (some 2021) =
      DividendCalculator.calculate ⟨19,-2⟩ ([C6div1] ++ []) (some 2021) :=
  ⟨year_filter.1 [C6buy, C6sell] 2021 C6r (by decide), by decide,
   year_filter.2.2.2 ⟨19,-2⟩ [C6div1] [] C6div2 2021 (by decide)⟩

/-- Claim C7.  Every country summary the dividend calculator emits satisfies:
`tax_due_poland` is `total_dividend_pln` times the tax rate, `tax_to_pay` is
the `max(0, ·)`-floored difference with the tax paid abroad, and `tax_to_pay`
is never negative. -/
theorem dividend_tax_floor (rate : Dec) (l : List Transaction) (ty : Option ℤ)
    (s : DividendSummary) (hs : s ∈ (DividendCalculator.calculate rate l ty).summaries) :
    s.tax_due_poland = Dec.mul s.total_dividend_pln rate ∧
    s.tax_to_pay = dmax0 (Dec.sub s.tax_due_poland s.tax_paid_abroad_pln) ∧
    0 ≤ s.tax_to_pay.toRat :=
  divCalculate_summary_fields rate l ty s hs

def C7div : Transaction :=
  Transaction.dividend ⟨1, ⟨2021,3,1⟩, "DD", ⟨1,0⟩, "PLN", none, some ⟨1,3⟩, none, some ("USA"), some ⟨25,1⟩⟩

def C7summary : DividendSummary :=
  ⟨"USA", ⟨1,3⟩, ⟨25,1⟩, ⟨19,1⟩, Dec.zero,
   [⟨1, ⟨2021,3,1⟩, "DD", ⟨1,0⟩, "PLN", none, some ⟨1,3⟩, none, some ("USA"), some ⟨25,1⟩⟩]⟩

/-- Witness for C7, including the specification's concrete example: dividend
1000 PLN at rate 0.19 with 250 PLN withheld abroad gives `tax_due_poland`
190 and `tax_to_pay` 0, not a negative amount. -/
theorem dividend_tax_floor_witness :
    (C7summary.tax_due_poland = Dec.mul C7summary.total_dividend_pln ⟨19,-2⟩ ∧
     C7summary.tax_to_pay =
       dmax0 (Dec.sub C7summary.tax_due_poland C7summary.tax_paid_abroad_pln) ∧
     0 ≤ C7summary.tax_to_pay.toRat) ∧
    C7summary.tax_due_poland = ⟨19,1⟩ ∧ C7summary.tax_to_pay = Dec.zero :=
  ⟨dividend_tax_floor ⟨19,-2⟩ [C7div] none C7summary (by decide), by decide, by decide⟩

/-- Claim C8 (code bug).  A dividend with an unresolved country (absent or
empty) is never aggregated under the "Unknown" bucket: validation emits a
no-country issue for it, `DividendCalculator.calculate` then returns early,
and the whole run has no summaries at all — the transaction (and every other
dividend in the batch) is dropped from all totals, contradicting the
specification's never-dropped guarantee.  The `tx.country or "Unknown"`
branch in the grouping loop is unreachable for such transactions. -/
theorem dividend_unknown_dropped (rate : Dec) (l : List Transaction) (ty : Option ℤ)
    (d : TxData) (hd : d ∈ dividendsOf l)
    (hc : d.country = none ∨ d.country = some (""))
    (hy : ∀ y, ty = some y → d.date.year = y) :
    (DividendCalculator.calculate rate l ty).summaries = [] ∧
    (DividendCalculator.calculate rate l ty).issues ≠ [] := by
  rcases ty with _ | y
  · unfold DividendCalculator.calculate
    dsimp only
    obtain ⟨hv1, hv2⟩ := divValidate_of_bad (dividendsOf l) d hd hc
    rw [if_neg (fun hAB => hv2 hAB.2), if_pos hv1]
    exact ⟨rfl, hv1⟩
  · unfold DividendCalculator.calculate
    dsimp only
    have hdmem : d ∈ (dividendsOf l).filter (fun d0 => d0.date.year == y) := by
      rw [List.mem_filter]
      exact ⟨hd, by simp [hy y rfl]⟩
    obtain ⟨hv1, hv2⟩ := divValidate_of_bad _ d hdmem hc
    rw [if_neg (fun hAB => hv2 hAB.2), if_pos hv1]
    exact ⟨rfl, hv1⟩

def C8div : TxData :=
  ⟨1, ⟨2021,3,1⟩, "E", ⟨1,0⟩, "PLN", none, some ⟨1,2⟩, none, none, none⟩

/-- Witness for C8: a country-less dividend makes the run return no
summaries, only the no-country issue. -/
theorem dividend_unknown_dropped_witness :
    ((DividendCalculator.calculate ⟨19,-2⟩ [Transaction.dividend C8div] none).summaries = [] ∧
     (DividendCalculator.calculate ⟨19,-2⟩ [Transaction.dividend C8div] none).issues ≠ []) ∧
    DividendCalculator.calculate ⟨19,-2⟩ [Transaction.dividend C8div] none =
      { summaries := [], stats := none, issues := [Issue.divNoCountry 0] } :=
  ⟨dividend_unknown_dropped ⟨19,-2⟩ [Transaction.dividend C8div] none C8div (by decide)
      (by decide) (fun y h => Option.noConfusion h),
   by decide⟩

/-- Claim C9 (amended).  A calculation run is a pure function of the
transaction values, but `process_sale` decrements the quantity of a partially
consumed Buy lot in place on the caller's objects.  Hence: (i) when the first
FIFO run leaves the transaction list unchanged (no partial consumption), a
second run on the same objects returns the identical result; (ii) dividend
results are always identical across runs, even after FIFO-run mutations,
because only Buy quantities are ever mutated.  Without the no-mutation
condition a second FIFO run can differ, see the counterexample. -/
theorem calculate_idempotent :
    (∀ (l : List Transaction) (ty : Option ℤ) (r : FifoCalculationResult)
      (h : List (ℕ × Dec)),
      FifoCalculator.calculate l ty = Except.ok (r, h) →
      updatedTransactions l h = l →
      FifoCalculator.calculate (updatedTransactions l h) ty = Except.ok (r, h)) ∧
    (∀ (rate : Dec) (l : List Transaction) (h : List (ℕ × Dec)) (ty : Option ℤ),
      DividendCalculator.calculate rate (updatedTransactions l h) ty =
        DividendCalculator.calculate rate l ty) := by
  constructor
  · intro l ty r h hcalc hupd
    rw [hupd, hcalc]
  · exact divCalculate_updated

def C9buy : Transaction :=
  Transaction.buy ⟨1, ⟨2021,1,1⟩, "C", ⟨2,0⟩, "PLN", none, some ⟨1,2⟩, none, none, none⟩

def C9sell : Transaction :=
  Transaction.sell ⟨2, ⟨2021,6,1⟩, "C", ⟨1,0⟩, "PLN", none, some ⟨6,1⟩, none, none, none⟩

/-- Counterexample to C9 as stated: buying 2 shares for 100 then selling 1
mutates the Buy object's quantity to 1 in place.  A second run on the same
objects sees a 1-share lot, so the match's cost basis is 100 instead of the
first run's 50 — the runs are not idempotent and the input was mutated. -/
theorem calculate_idempotent_cex :
    (FifoCalculator.calculate [C9buy, C9sell] none).map
      (fun p => (p.2, p.1.matchList.map (fun m => m.cost_pln))) =
      Except.ok ([(1, ⟨1,0⟩)], [⟨5,1⟩]) ∧
    updatedTransactions [C9buy, C9sell] [(1, ⟨1,0⟩)] ≠ [C9buy, C9sell] ∧
    (FifoCalculator.calculate (updatedTransactions [C9buy, C9sell] [(1, ⟨1,0⟩)]) none).map
      (fun p => p.1.matchList.map (fun m => m.cost_pln)) = Except.ok [⟨1,2⟩] :=
  ⟨by decide, by decide, by decide⟩

def C9wbuy : Transaction :=
  Transaction.buy ⟨1, ⟨2021,1,1⟩, "C", ⟨1,0⟩, "PLN", none, some ⟨1,2⟩, none, none, none⟩

def C9wsell : Transaction :=
  Transaction.sell ⟨2, ⟨2021,6,1⟩, "C", ⟨1,0⟩, "PLN", none, some ⟨6,1⟩, none, none, none⟩

def C9wr : FifoCalculationResult :=
  { matchList := [⟨2, 1, ⟨1,0⟩, ⟨6,1⟩, ⟨1,2⟩, ⟨-4,1⟩, ⟨2021,6,1⟩, ⟨2021,1,1⟩, "Unknown", "C"⟩],
    portfolio := ⟨[⟨"C", []⟩]⟩,
    stats := some ⟨1, 1, 1, none⟩, issues := [] }

/-- Witness for C9: a fully consumed lot is popped without mutation, so the
second run is identical; and dividend runs are unaffected by quantity
overwrites. -/
theorem calculate_idempotent_witness :
    FifoCalculator.calculate (updatedTransactions [C9wbuy, C9wsell] []) none =
      Except.ok (C9wr, []) ∧
    DividendCalculator.calculate ⟨19,-2⟩
        (updatedTransactions [C6div1] [(1, ⟨1,0⟩)]) none =
      DividendCalculator.calculate ⟨19,-2⟩ [C6div1] none :=
  ⟨calculate_idempotent.1 [C9wbuy, C9wsell] none C9wr [] (by decide) (by decide),
   calculate_idempotent.2 ⟨19,-2⟩ [C6div1] [(1, ⟨1,0⟩)] none⟩

/-- Claim C10.  When `process_sale` raises the insufficient-shares error the
portfolio is exactly as before the call — the check precedes the matching
loop, so no lot is decremented or removed and no object is mutated. -/
theorem process_sale_insufficient_frame (port : Portfolio) (sale : TxData) (t : String)
    (h : (port.process_sale sale).1 = Except.error (SaleError.insufficientShares t)) :
    port.process_sale sale = (Except.error (SaleError.insufficientShares t), port, []) :=
  process_sale_valueError port sale (SaleError.insufficientShares t) h rfl

def C10lot : TxData :=
  ⟨1, ⟨2021,1,1⟩, "G", ⟨2,1⟩, "PLN", none, some ⟨1,2⟩, none, none, none⟩

def C10sale : TxData :=
  ⟨2, ⟨2021,2,1⟩, "G", ⟨21,0⟩, "PLN", none, some ⟨1,2⟩, none, none, none⟩

def C10port : Portfolio := ⟨[⟨"G", [C10lot]⟩]⟩

/-- Witness for C10: selling 21 of 20 held shares fails and leaves the
portfolio untouched. -/
theorem process_sale_insufficient_frame_witness :
    C10port.process_sale C10sale =
      (Except.error (SaleError.insufficientShares ("G")), C10port, []) :=
  process_sale_insufficient_frame C10port C10sale ("G") (by decide)
